import Mathlib

/-!
Verification of the report-editor core: the content rendering pipeline
(HTML escaping, image-reference resolution, math segmentation, image
materialization) and the document/version data model, shallowly embedded
over `List Char`.  Stores (section values, attachments) are association
lists with first-match lookup, which is observationally equivalent to the
string-keyed objects of the source.  Wall-clock readings are passed in as
explicit `Nat` parameters.
-/

set_option maxRecDepth 10000

abbrev Str := List Char

/-- Global single-character replacement, the semantics of
`String.replace(/c/g, rep)` used throughout the source. -/
def replC (c : Char) (rep : Str) : Str → Str
  | [] => []
  | x :: t => (if x = c then rep else [x]) ++ replC c rep t

def joinAll : List Str → Str
  | [] => []
  | s :: t => s ++ joinAll t

/-- Character-wise expansion; the normal form of a sequence of
non-interfering `replC` passes. -/
def entMapWith (f : Char → Str) : Str → Str
  | [] => []
  | c :: t => f c ++ entMapWith f t

-- ## Document data model (types.ts)

abbrev Store := List (Str × Str)

def lookupS : Store → Str → Option Str
  | [], _ => none
  | (k, v) :: t, key => if k = key then some v else lookupS t key

/-- `values[id] || ""` -/
def getS (s : Store) (key : Str) : Str := (lookupS s key).getD []

/-- `{ ...prev, [id]: v }` : the new binding shadows any old one. -/
def insertS (s : Store) (key v : Str) : Store := (key, v) :: s

structure ReportVersion where
  id : Str
  timestamp : Nat
  name : Option Str
  values : Store
  attachments : Option Store
  deriving DecidableEq

structure ReportData where
  templateId : Str
  lastModified : Nat
  values : Store
  attachments : Store
  history : List ReportVersion
  deriving DecidableEq

/-- The persisted record as read back from storage: `history` and
`attachments` may be absent. -/
structure StoredDoc where
  templateId : Str
  lastModified : Nat
  values : Store
  attachments : Option Store
  history : Option (List ReportVersion)
  deriving DecidableEq

inductive FieldType where
  | text
  | textarea
  deriving DecidableEq

structure SectionDefinition where
  id : Str
  label : Str
  fieldType : FieldType
  required : Option Bool
  placeholder : Option Str
  aiPrompt : Option Str
  deriving DecidableEq

structure ReportTemplate where
  id : Str
  title : Str
  description : Str
  sections : List SectionDefinition
  deriving DecidableEq

-- ## Document model operations (App handlers)

/-- `handleInputChange` -/
def handleInputChange (rd : ReportData) (id value : Str) (now : Nat) : ReportData :=
  { rd with lastModified := now, values := insertS rd.values id value }

/-- The snapshot built by `handleSaveVersion`. -/
def mkVersion (rd : ReportData) (now : Nat) : ReportVersion :=
  { id := (Nat.repr now).data
    timestamp := now
    name := some ("Version ".data ++ (Nat.repr (rd.history.length + 1)).data)
    values := rd.values
    attachments := some rd.attachments }

/-- `handleSaveVersion`: prepend the snapshot, truncate to 30. -/
def handleSaveVersion (rd : ReportData) (now : Nat) : ReportData :=
  { rd with history := (mkVersion rd now :: rd.history).take 30 }

/-- `handleRestoreVersion`; the `confirm` flag is the result of the
destructive-action confirmation dialog. -/
def handleRestoreVersion (confirm : Bool) (v : ReportVersion) (now : Nat)
    (rd : ReportData) : ReportData :=
  if confirm then
    { rd with
      values := v.values
      attachments := v.attachments.getD []
      lastModified := now }
  else rd

/-- The markdown reference tag spliced in by `insertAttachment`. -/
def imageTag (altText id : Str) : Str :=
  '\n' :: ("![".data ++ altText ++ "](attachment:".data ++ id ++ [')', '\n'])

/-- `insertAttachment`: register the payload under a fresh id, then splice
the reference tag into the active section (at the cursor if one is
available, else appended) through `handleInputChange`. -/
def insertAttachment (rd : ReportData) (activeSectionId freshId dataUrl altText : Str)
    (cursor : Option (Nat × Nat)) (now : Nat) : ReportData :=
  let rd1 := { rd with attachments := insertS rd.attachments freshId dataUrl }
  let tag := imageTag altText freshId
  let text := getS rd1.values activeSectionId
  let newText :=
    match cursor with
    | some (s, e) => text.take s ++ tag ++ text.drop e
    | none => text ++ tag
  handleInputChange rd1 activeSectionId newText now

/-- `handleTemplateSelect`: rehydrate from the persisted record only when
its template identifier matches the selected key. -/
def handleTemplateSelect (key : Str) (saved : Option StoredDoc) (now : Nat) : ReportData :=
  match saved with
  | some parsed =>
    if parsed.templateId = key then
      { templateId := key
        lastModified := now
        values := parsed.values
        attachments := parsed.attachments.getD []
        history := parsed.history.getD [] }
    else
      { templateId := key, lastModified := now, values := [], attachments := [], history := [] }
  | none => { templateId := key, lastModified := now, values := [], attachments := [], history := [] }

/-- The auto-load effect's defaulting of a parsed draft:
`if (!parsed.history) parsed.history = []` and likewise for attachments. -/
def normalizeDraft (parsed : StoredDoc) : StoredDoc :=
  { parsed with
    history := some (parsed.history.getD [])
    attachments := some (parsed.attachments.getD []) }

-- ## Iterated version saving (for the history-bound invariant)

/-- One save-version call, preceded by arbitrary edits that leave the
section values and attachment store in the given state. -/
def saveStep (rd : ReportData) (s : Store × Store × Nat) : ReportData :=
  handleSaveVersion { rd with values := s.1, attachments := s.2.1 } s.2.2

def applySaves (rd : ReportData) (steps : List (Store × Store × Nat)) : ReportData :=
  steps.foldl saveStep rd

/-- The observable content of a stored version. -/
def versionData (v : ReportVersion) : Store × Option Store × Nat :=
  (v.values, v.attachments, v.timestamp)

/-- The content a save call at the given state must snapshot. -/
def stepData (s : Store × Store × Nat) : Store × Option Store × Nat :=
  (s.1, some s.2.1, s.2.2)

def demoSteps : List (Store × Store × Nat) := (List.range 31).map (fun n => ([], [], n))

def demoRd : ReportData := ⟨[], 0, [], [], []⟩

def demoVersion : ReportVersion :=
  ⟨['1'], 1, none, [(['t'], ['x'])], some [(['a'], ['d'])]⟩

def demoRdWithHistory : ReportData := ⟨['k'], 0, [], [], [demoVersion]⟩

def demoStored : StoredDoc := ⟨['k'], 3, [(['s'], ['v'])], none, none⟩

def demoBareVersion : ReportVersion := ⟨['2'], 2, none, [(['t'], ['y'])], none⟩

-- ## Content Transformer: pass 1, HTML escaping

/-- PASS 1: escapeHtml, five sequential global replacements (amp first). -/
def escapeHtml (s : Str) : Str :=
  replC '\'' "&#039;".data (replC '"' "&quot;".data (replC '>' "&gt;".data
    (replC '<' "&lt;".data (replC '&' "&amp;".data s))))

/-- The per-character effect of the renderer's escape. -/
def entR (c : Char) : Str :=
  if c = '&' then "&amp;".data
  else if c = '<' then "&lt;".data
  else if c = '>' then "&gt;".data
  else if c = '"' then "&quot;".data
  else if c = '\'' then "&#039;".data
  else [c]

-- ## Basic scanning primitives

def isPrefB : Str → Str → Bool
  | [], _ => true
  | _ :: _, [] => false
  | p :: ps, l :: ls => if p = l then isPrefB ps ls else false

def isSufB (p s : Str) : Bool := isPrefB p.reverse s.reverse

def hasSubB (pat : Str) : Str → Bool
  | [] => isPrefB pat []
  | s@(_ :: t) => isPrefB pat s || hasSubB pat t

-- ## Content Transformer: pass 2, image-reference resolution

abbrev AttStore := Store

def attMarker : Str := "](attachment:".data

/-- Lazy scan for the closing parenthesis of an image reference: the id
capture matches any character except newline, as few as possible. -/
def findParen : Str → Option (Str × Str)
  | [] => none
  | c :: t =>
    if c = ')' then some ([], t)
    else if c = '\n' then none
    else (findParen t).map (fun p => (c :: p.1, p.2))

/-- Lazy scan for the alt capture of the image pattern: shortest alt first,
growing (never across a newline) whenever the rest of the pattern cannot be
completed.  Returns (alt, id, rest-after-the-match). -/
def findAlt : Str → Option (Str × Str × Str)
  | [] => none
  | c :: t =>
    if isPrefB attMarker (c :: t) then
      match findParen (List.drop 13 (c :: t)) with
      | some (idPart, rest) => some ([], idPart, rest)
      | none =>
        if c = '\n' then none
        else (findAlt t).map (fun r => (c :: r.1, r.2.1, r.2.2))
    else
      if c = '\n' then none
      else (findAlt t).map (fun r => (c :: r.1, r.2.1, r.2.2))

def imgStartS : Str := "$$IMG_START$$".data

def imgSepS : Str := "$$IMG_SEP$$".data

def imgEndS : Str := "$$IMG_END$$".data

def brokenImgS : Str := "[Broken Image: ".data

/-- PASS 2 scan: a resolvable id becomes the internal placeholder wrapping
the payload and alt text; an unknown id becomes the visible broken-image
marker.  Fuel at least the input length makes the scan total; exhausted
fuel returns the remaining input unprocessed. -/
def replImgsF (att : AttStore) : Nat → Str → Str
  | 0, s => s
  | _ + 1, [] => []
  | fuel + 1, '!' :: '[' :: t =>
    (match findAlt t with
     | some (alt, id, rest) =>
       (match lookupS att id with
        | some src => imgStartS ++ src ++ imgSepS ++ alt ++ imgEndS
        | none => brokenImgS ++ alt ++ [']']) ++ replImgsF att fuel rest
     | none => '!' :: replImgsF att fuel ('[' :: t))
  | fuel + 1, c :: t => c :: replImgsF att fuel t

def replImgs (att : AttStore) (s : Str) : Str := replImgsF att s.length s

-- ## Content Transformer: pass 3, math segmentation

/-- First unescaped inline delimiter (lazy single-dollar search). -/
def findD : Str → Option (Str × Str)
  | [] => none
  | c :: t => if c = '$' then some ([], t) else (findD t).map (fun p => (c :: p.1, p.2))

/-- First double-dollar occurrence (lazy block-closer search; the dot-all
class makes newlines admissible inside math). -/
def findDD : Str → Option (Str × Str)
  | [] => none
  | '$' :: '$' :: t => some ([], t)
  | c :: t => (findDD t).map (fun p => (c :: p.1, p.2))

/-- The math-delimiter alternation attempted at the current position: block
form has precedence, the inline form is tried at the same position when no
block closer exists. -/
def matchMathAt : Str → Option (Str × Str)
  | '$' :: '$' :: t =>
    (match findDD t with
     | some (inner, rest) => some ('$' :: '$' :: (inner ++ ['$', '$']), rest)
     | none => some (['$', '$'], t))
  | '$' :: t =>
    (match findD t with
     | some (inner, rest) => some ('$' :: (inner ++ ['$']), rest)
     | none => none)
  | _ => none

/-- Prepend a character to the leading text part of a part list. -/
def consText (c : Char) : List (Bool × Str) → List (Bool × Str)
  | (false, tx) :: ps => (false, c :: tx) :: ps
  | ps => (false, [c]) :: ps

/-- PASS 3 split on the math alternation with the delimiter captured; parts
tagged true are delimiters.  (Empty text parts are not materialized; they
render to nothing either way.) -/
def mathSplitF : Nat → Str → List (Bool × Str)
  | 0, s => if s = [] then [] else [(false, s)]
  | _ + 1, [] => []
  | fuel + 1, c :: t =>
    match matchMathAt (c :: t) with
    | some (d, rest) => (true, d) :: mathSplitF fuel rest
    | none => consText c (mathSplitF fuel t)

def mathSplit (s : Str) : List (Bool × Str) := mathSplitF s.length s

/-- Sequential unescaping of the lt entities inside a math slice. -/
def unescLt : Str → Str
  | '&' :: 'l' :: 't' :: ';' :: t => '<' :: unescLt t
  | c :: t => c :: unescLt t
  | [] => []

/-- Sequential unescaping of the gt entities inside a math slice. -/
def unescGt : Str → Str
  | '&' :: 'g' :: 't' :: ';' :: t => '>' :: unescGt t
  | c :: t => c :: unescGt t
  | [] => []

def unescMath (s : Str) : Str := unescGt (unescLt s)

/-- JS slice(n, -n). -/
def sliceBoth (n : Nat) (s : Str) : Str := (s.drop n).take (s.length - 2 * n)

/-- The pass-3 map body applied to every part (the source checks delimiter
shape on the part content itself): block-math lookalikes go to the
capability in display mode, inline lookalikes in inline mode — in both
cases with only the lt/gt entities unescaped — and everything else has its
newlines turned into break tags. -/
def renderPart (rm : Str → Bool → Str) (p : Str) : Str :=
  if isPrefB ['$', '$'] p && isSufB ['$', '$'] p then
    rm (unescMath (sliceBoth 2 p)) true
  else if isPrefB ['$'] p && isSufB ['$'] p then
    rm (unescMath (sliceBoth 1 p)) false
  else replC '\n' "<br/>".data p

/-- The argument list pass 3 hands to the injected math capability. -/
def mathCalls (s : Str) : List (Str × Bool) :=
  (mathSplit s).filterMap (fun p =>
    if isPrefB ['$', '$'] p.2 && isSufB ['$', '$'] p.2 then
      some (unescMath (sliceBoth 2 p.2), true)
    else if isPrefB ['$'] p.2 && isSufB ['$'] p.2 then
      some (unescMath (sliceBoth 1 p.2), false)
    else none)

def mathJoin (rm : Str → Bool → Str) (s : Str) : Str :=
  joinAll ((mathSplit s).map (fun p => renderPart rm p.2))

-- ## Content Transformer: pass 4, image materialization

/-- Lazy scan for a stop sequence with a newline-free capture before it. -/
def findStop (stop : Str) : Str → Option (Str × Str)
  | [] => none
  | c :: t =>
    if isPrefB stop (c :: t) then some ([], List.drop stop.length (c :: t))
    else if c = '\n' then none
    else (findStop stop t).map (fun p => (c :: p.1, p.2))

/-- Lazy scan for the src and alt captures of the placeholder pattern; the
src capture grows past a separator whose alt part cannot be completed. -/
def findSrcAlt : Str → Option (Str × Str × Str)
  | [] => none
  | c :: t =>
    if isPrefB imgSepS (c :: t) then
      match findStop imgEndS (List.drop 11 (c :: t)) with
      | some (alt, rest) => some ([], alt, rest)
      | none =>
        if c = '\n' then none
        else (findSrcAlt t).map (fun r => (c :: r.1, r.2.1, r.2.2))
    else
      if c = '\n' then none
      else (findSrcAlt t).map (fun r => (c :: r.1, r.2.1, r.2.2))

/-- The final image markup of pass 4 (exact template text of the source,
including its embedded newlines and indentation). -/
def imgHtml (src alt : Str) : Str :=
  "<div class=\"my-6 flex flex-col items-center\">\n                <img src=\"".data
    ++ src
    ++ "\" alt=\"".data
    ++ alt
    ++ "\" class=\"max-w-full h-auto max-h-[500px] rounded-lg shadow-md border border-gray-200\" />\n                <span class=\"text-sm text-gray-500 mt-2 italic\">".data
    ++ alt
    ++ "</span>\n              </div>".data

/-- PASS 4: restore placeholder sequences to final image markup. -/
def materializeF : Nat → Str → Str
  | 0, s => s
  | _ + 1, [] => []
  | fuel + 1, c :: t =>
    if isPrefB imgStartS (c :: t) then
      match findSrcAlt (List.drop 13 (c :: t)) with
      | some (src, alt, rest) => imgHtml src alt ++ materializeF fuel rest
      | none => c :: materializeF fuel t
    else c :: materializeF fuel t

def materialize (s : Str) : Str := materializeF s.length s

/-- The full ContentRenderer pipeline: escape, resolve image references,
segment and render math, materialize images.  The parameter rm is the
injected math capability. -/
def render (rm : Str → Bool → Str) (att : AttStore) (text : Str) : Str :=
  materialize (mathJoin rm (replImgs att (escapeHtml text)))

/-- The math capability in its absent/fallback mode: raw source unchanged. -/
def rmRaw : Str → Bool → Str := fun m _ => m

-- ## DOCX export projection (exportService)

/-- exportToDocx's per-section escape: amp, lt, gt, then apos, then quot. -/
def exportEscape (s : Str) : Str :=
  replC '"' "&quot;".data (replC '\'' "&apos;".data (replC '>' "&gt;".data
    (replC '<' "&lt;".data (replC '&' "&amp;".data s))))

/-- The per-character effect of the export escape. -/
def entX (c : Char) : Str :=
  if c = '&' then "&amp;".data
  else if c = '<' then "&lt;".data
  else if c = '>' then "&gt;".data
  else if c = '\'' then "&apos;".data
  else if c = '"' then "&quot;".data
  else [c]

def wordBreakXml : Str := "</w:t></w:r><w:r><w:br/></w:r><w:r><w:t>".data

/-- Escaped section content with newlines turned into Word break runs. -/
def exportSectionContent (content : Str) : Str :=
  replC '\n' wordBreakXml (exportEscape content)

def docxHeader (title : Str) : Str :=
  "<?xml version=\"1.0\" encoding=\"UTF-8\" standalone=\"yes\"?>\n<w:document xmlns:w=\"http://schemas.openxmlformats.org/wordprocessingml/2006/main\">\n  <w:body>\n    <w:p>\n      <w:pPr><w:pStyle w:val=\"Heading1\"/><w:jc w:val=\"center\"/></w:pPr>\n      <w:r><w:t>".data
    ++ title
    ++ "</w:t></w:r>\n    </w:p>\n    <w:p/>\n    <w:p/>".data

def docxSection (values : Store) (sec : SectionDefinition) : Str :=
  "\n      <w:p>\n        <w:pPr><w:pStyle w:val=\"Heading2\"/></w:pPr>\n        <w:r><w:t>".data
    ++ sec.label
    ++ "</w:t></w:r>\n      </w:p>\n      <w:p>\n        <w:r><w:t>".data
    ++ exportSectionContent (getS values sec.id)
    ++ "</w:t></w:r>\n      </w:p>\n      <w:p/>".data

def docxFooter : Str :=
  "<w:sectPr><w:pgSz w:w=\"11906\" w:h=\"16838\"/></w:sectPr></w:body></w:document>".data

/-- exportToDocx's document body: a pure projection of (template, values). -/
def docxDocument (template : ReportTemplate) (values : Store) : Str :=
  docxHeader template.title
    ++ joinAll (template.sections.map (docxSection values))
    ++ docxFooter

def specialHtmlChar (c : Char) : Prop :=
  c = '&' ∨ c = '<' ∨ c = '>' ∨ c = '"' ∨ c = '\''

instance (c : Char) : Decidable (specialHtmlChar c) := by
  unfold specialHtmlChar
  infer_instance

def demoExportText : Str := "![a](attachment:x) $m$".data

-- ## C2 : image-reference resolution (code bug: sentinel eaten by pass 3)

def c2Att : AttStore := [("a1".data, "XY".data)]

/-- A concrete math capability whose markup never contains a dollar sign. -/
def rmConst : Str → Bool → Str := fun _ _ => ['M']

def ltsc : Str := ['<', 's', 'c']

/-- No occurrence of the three-character sequence lt-s-c. -/
def NoLtsc (s : Str) : Prop := ∀ x y : Str, s ≠ x ++ (ltsc ++ y)

/-- The string ends with neither a bare lt nor lt-s, so no occurrence of
lt-s-c can straddle its right edge. -/
def SafeTail (s : Str) : Prop :=
  (∀ x : Str, s ≠ x ++ ['<']) ∧ (∀ x : Str, s ≠ x ++ ['<', 's'])

def PieceSafe (s : Str) : Prop := NoLtsc s ∧ SafeTail s

def imgK1 : Str :=
  "<div class=\"my-6 flex flex-col items-center\">\n                <img src=\"".data

def imgK2 : Str := "\" alt=\"".data

def imgK3 : Str :=
  "\" class=\"max-w-full h-auto max-h-[500px] rounded-lg shadow-md border border-gray-200\" />\n                <span class=\"text-sm text-gray-500 mt-2 italic\">".data

def imgK4 : Str := "</span>\n              </div>".data
def PayloadOk (p : Str) : Prop := '<' ∉ p ∧ '"' ∉ p ∧ '\'' ∉ p

instance (p : Str) : Decidable (PayloadOk p) := by
  unfold PayloadOk
  infer_instance

/-- A well-behaved math capability: its markup never contains the
lt-s-c opener sequence, nor ends in the middle of one. -/
def RmSafe (rm : Str → Bool → Str) : Prop :=
  ∀ m d, hasSubB ltsc (rm m d) = false ∧ isSufB ['<'] (rm m d) = false
    ∧ isSufB ['<', 's'] (rm m d) = false

def demoAtt : AttStore := [("a".data, "data:image/png;base64,AAA".data)]

def demoAttack : Str := "<script>alert(1)</script> ![x](attachment:a) $<b$".data
def HasImgTag (s : Str) : Prop :=
  ∃ pre alt id post,
    s = pre ++ ('!' :: '[' :: (alt ++ (attMarker ++ (id ++ ')' :: post))))
    ∧ '\n' ∉ alt ∧ '\n' ∉ id

def demoPlain : Str := "Hello <b>\nworld".data

-- ## Theorems

-- ## C4 : bounded, newest-first version history

theorem take_append_take (n : Nat) (A B : List α) :
    (A ++ B.take n).take n = (A ++ B).take n := by
  rw [List.take_append_eq_append_take, List.take_append_eq_append_take, List.take_take,
    Nat.min_eq_left (Nat.sub_le n A.length)]

theorem applySaves_cons (rd : ReportData) (s : Store × Store × Nat)
    (t : List (Store × Store × Nat)) :
    applySaves rd (s :: t) = applySaves (saveStep rd s) t := rfl

theorem applySaves_history_map (steps : List (Store × Store × Nat)) :
    ∀ rd : ReportData, rd.history.length ≤ 30 →
      (applySaves rd steps).history.map versionData
          = ((steps.reverse.map stepData) ++ rd.history.map versionData).take 30
        ∧ (applySaves rd steps).history.length ≤ 30 := by
  induction steps with
  | nil =>
    intro rd h
    refine ⟨?_, h⟩
    simp only [applySaves, List.foldl_nil, List.reverse_nil, List.map_nil, List.nil_append]
    rw [List.take_of_length_le (by simpa using h)]
  | cons s rest ih =>
    intro rd h
    rw [applySaves_cons]
    have hlen : (saveStep rd s).history.length ≤ 30 := by
      simp [saveStep, handleSaveVersion]
    obtain ⟨h1, h2⟩ := ih (saveStep rd s) hlen
    refine ⟨?_, h2⟩
    have h3 : (saveStep rd s).history.map versionData
        = (stepData s :: rd.history.map versionData).take 30 := by
      simp [saveStep, handleSaveVersion, mkVersion, versionData, stepData, List.map_take]
    rw [h1, h3, take_append_take]
    simp [List.map_append]

/-- C4: after any sequence of more than 30 saveVersion calls (each capturing
the section values and attachment store current at call time), the history
has length exactly 30 and its entries are precisely the snapshots of the 30
most recent calls, newest first. -/
theorem history_bounded_newest_first (rd : ReportData) (steps : List (Store × Store × Nat))
    (hinit : rd.history.length ≤ 30) (hN : 30 < steps.length) :
    (applySaves rd steps).history.length = 30 ∧
    (applySaves rd steps).history.map versionData = (steps.reverse.map stepData).take 30 := by
  obtain ⟨h1, _⟩ := applySaves_history_map steps rd hinit
  have hA : (steps.reverse.map stepData).length = steps.length := by simp
  have hcut : (30 : Nat) - (steps.reverse.map stepData).length = 0 := by omega
  have h1' : (applySaves rd steps).history.map versionData
      = (steps.reverse.map stepData).take 30 := by
    rw [h1, List.take_append_eq_append_take, hcut]
    simp
  refine ⟨?_, h1'⟩
  have hl := congrArg List.length h1'
  rw [List.length_map, List.length_take, hA] at hl
  omega

theorem history_bounded_newest_first_witness :
    (demoRd.history.length ≤ 30 ∧ 30 < demoSteps.length) ∧
    ((applySaves demoRd demoSteps).history.length = 30 ∧
     (applySaves demoRd demoSteps).history.map versionData
        = (demoSteps.reverse.map stepData).take 30) :=
  ⟨⟨by decide, by simp [demoSteps]⟩,
    history_bounded_newest_first demoRd demoSteps (by decide) (by simp [demoSteps])⟩

-- ## C5 : restore replaces values/attachments, frames everything else

/-- C5: restoring a version from the history (after a positive
confirmation) replaces the section values and the attachment store with the
version's snapshot and stamps the restore time, while the history, the
template identifier and the version itself are untouched; a declined
confirmation changes nothing at all. -/
theorem restore_replaces_and_frames (rd : ReportData) (v : ReportVersion) (A : Store)
    (now : Nat) (hv : v ∈ rd.history) (hA : v.attachments = some A) :
    ((handleRestoreVersion true v now rd).values = v.values
      ∧ (handleRestoreVersion true v now rd).attachments = A
      ∧ (handleRestoreVersion true v now rd).lastModified = now
      ∧ (handleRestoreVersion true v now rd).history = rd.history
      ∧ (handleRestoreVersion true v now rd).templateId = rd.templateId
      ∧ v ∈ (handleRestoreVersion true v now rd).history)
    ∧ handleRestoreVersion false v now rd = rd := by
  simp [handleRestoreVersion, hA, hv]

theorem restore_replaces_and_frames_witness :
    (demoVersion ∈ demoRdWithHistory.history
      ∧ demoVersion.attachments = some [(['a'], ['d'])]) ∧
    (((handleRestoreVersion true demoVersion 5 demoRdWithHistory).values = demoVersion.values
      ∧ (handleRestoreVersion true demoVersion 5 demoRdWithHistory).attachments = [(['a'], ['d'])]
      ∧ (handleRestoreVersion true demoVersion 5 demoRdWithHistory).lastModified = 5
      ∧ (handleRestoreVersion true demoVersion 5 demoRdWithHistory).history
          = demoRdWithHistory.history
      ∧ (handleRestoreVersion true demoVersion 5 demoRdWithHistory).templateId
          = demoRdWithHistory.templateId
      ∧ demoVersion ∈ (handleRestoreVersion true demoVersion 5 demoRdWithHistory).history)
    ∧ handleRestoreVersion false demoVersion 5 demoRdWithHistory = demoRdWithHistory) :=
  ⟨⟨by decide, by decide⟩,
    restore_replaces_and_frames demoRdWithHistory demoVersion [(['a'], ['d'])] 5
      (by decide) (by decide)⟩

-- ## C7 : defensive defaulting on load; no partial merge across templates

/-- C7: a persisted record with absent history or attachments loads with
those fields defaulted to empty containers (both in the auto-load
normalization and through template selection), and selecting a template
whose key differs from the record's identifier initializes values,
attachments and history all empty, merging nothing. -/
theorem load_defaults_and_no_partial_merge (key : Str) (r : StoredDoc) (now : Nat) :
    ((normalizeDraft r).history.isSome ∧ (normalizeDraft r).attachments.isSome)
    ∧ (r.history = none → (normalizeDraft r).history = some [])
    ∧ (r.attachments = none → (normalizeDraft r).attachments = some [])
    ∧ (r.templateId = key →
        (handleTemplateSelect key (some r) now).values = r.values
        ∧ (r.history = none → (handleTemplateSelect key (some r) now).history = [])
        ∧ (r.attachments = none → (handleTemplateSelect key (some r) now).attachments = []))
    ∧ (r.templateId ≠ key →
        handleTemplateSelect key (some r) now
          = { templateId := key, lastModified := now
              values := [], attachments := [], history := [] }) := by
  refine ⟨⟨rfl, rfl⟩, ?_, ?_, ?_, ?_⟩
  · intro h; simp [normalizeDraft, h]
  · intro h; simp [normalizeDraft, h]
  · intro h
    refine ⟨?_, ?_, ?_⟩
    · simp [handleTemplateSelect, h]
    · intro hh; simp [handleTemplateSelect, h, hh]
    · intro ha; simp [handleTemplateSelect, h, ha]
  · intro h
    simp [handleTemplateSelect, h]

theorem load_defaults_and_no_partial_merge_witness :
    ((normalizeDraft demoStored).history.isSome
      ∧ (normalizeDraft demoStored).attachments.isSome)
    ∧ (demoStored.history = none → (normalizeDraft demoStored).history = some [])
    ∧ (demoStored.attachments = none → (normalizeDraft demoStored).attachments = some [])
    ∧ (demoStored.templateId = ['k'] →
        (handleTemplateSelect ['k'] (some demoStored) 9).values = demoStored.values
        ∧ (demoStored.history = none →
            (handleTemplateSelect ['k'] (some demoStored) 9).history = [])
        ∧ (demoStored.attachments = none →
            (handleTemplateSelect ['k'] (some demoStored) 9).attachments = []))
    ∧ (demoStored.templateId ≠ ['k'] →
        handleTemplateSelect ['k'] (some demoStored) 9
          = { templateId := ['k'], lastModified := 9
              values := [], attachments := [], history := [] }) :=
  load_defaults_and_no_partial_merge ['k'] demoStored 9

-- ## C8 : mutations bump last-modified, template identifier fixed

/-- C8: an input change or an attachment insertion performed at a clock
reading strictly later than the stored stamp leaves the document with a
strictly larger last-modified, and neither mutation touches the template
identifier. -/
theorem mutations_bump_lastModified (rd : ReportData) (sec val freshId url alt : Str)
    (cursor : Option (Nat × Nat)) (now : Nat) (h : rd.lastModified < now) :
    (rd.lastModified < (handleInputChange rd sec val now).lastModified
      ∧ (handleInputChange rd sec val now).templateId = rd.templateId)
    ∧ (rd.lastModified < (insertAttachment rd sec freshId url alt cursor now).lastModified
      ∧ (insertAttachment rd sec freshId url alt cursor now).templateId = rd.templateId) := by
  refine ⟨⟨?_, rfl⟩, ⟨?_, rfl⟩⟩ <;> simpa [handleInputChange, insertAttachment] using h

theorem mutations_bump_lastModified_witness :
    demoRd.lastModified < 7 ∧
    ((demoRd.lastModified < (handleInputChange demoRd ['s'] ['v'] 7).lastModified
      ∧ (handleInputChange demoRd ['s'] ['v'] 7).templateId = demoRd.templateId)
    ∧ (demoRd.lastModified
          < (insertAttachment demoRd ['s'] ['i'] ['d'] ['a'] none 7).lastModified
      ∧ (insertAttachment demoRd ['s'] ['i'] ['d'] ['a'] none 7).templateId
          = demoRd.templateId)) :=
  ⟨by decide, mutations_bump_lastModified demoRd ['s'] ['v'] ['i'] ['d'] ['a'] none 7 (by decide)⟩

-- ## C10 : restoring a snapshot without attachments yields the empty store

/-- C10: restoring a version whose stored snapshot has no attachments field
sets the document's attachment store to the empty map, so the store is
always well-formed afterwards. -/
theorem restore_defaults_missing_attachments (rd : ReportData) (v : ReportVersion)
    (now : Nat) (h : v.attachments = none) :
    (handleRestoreVersion true v now rd).attachments = [] := by
  simp [handleRestoreVersion, h]

theorem restore_defaults_missing_attachments_witness :
    demoBareVersion.attachments = none ∧
    (handleRestoreVersion true demoBareVersion 4 demoRd).attachments = [] :=
  ⟨by decide, restore_defaults_missing_attachments demoRd demoBareVersion 4 (by decide)⟩

theorem replC_append (c : Char) (rep : Str) (a b : Str) :
    replC c rep (a ++ b) = replC c rep a ++ replC c rep b := by
  induction a with
  | nil => rfl
  | cons x t ih => simp [replC, ih]

theorem escapeHtml_append (a b : Str) :
    escapeHtml (a ++ b) = escapeHtml a ++ escapeHtml b := by
  simp [escapeHtml, replC_append]

theorem escapeHtml_char (c : Char) : escapeHtml [c] = entR c := by
  by_cases h1 : c = '&'
  · subst h1; rfl
  · by_cases h2 : c = '<'
    · subst h2; rfl
    · by_cases h3 : c = '>'
      · subst h3; rfl
      · by_cases h4 : c = '"'
        · subst h4; rfl
        · by_cases h5 : c = '\''
          · subst h5; rfl
          · simp [escapeHtml, replC, entR, h1, h2, h3, h4, h5]

theorem escapeHtml_eq_entMap (s : Str) : escapeHtml s = entMapWith entR s := by
  induction s with
  | nil => rfl
  | cons c t ih =>
    have : escapeHtml (c :: t) = escapeHtml [c] ++ escapeHtml t := escapeHtml_append [c] t
    rw [this, escapeHtml_char, ih]
    rfl

theorem exportEscape_append (a b : Str) :
    exportEscape (a ++ b) = exportEscape a ++ exportEscape b := by
  simp [exportEscape, replC_append]

theorem exportEscape_char (c : Char) : exportEscape [c] = entX c := by
  by_cases h1 : c = '&'
  · subst h1; rfl
  · by_cases h2 : c = '<'
    · subst h2; rfl
    · by_cases h3 : c = '>'
      · subst h3; rfl
      · by_cases h4 : c = '\''
        · subst h4; rfl
        · by_cases h5 : c = '"'
          · subst h5; rfl
          · simp [exportEscape, replC, entX, h1, h2, h3, h4, h5]

theorem exportEscape_eq_entMap (s : Str) : exportEscape s = entMapWith entX s := by
  induction s with
  | nil => rfl
  | cons c t ih =>
    have : exportEscape (c :: t) = exportEscape [c] ++ exportEscape t := exportEscape_append [c] t
    rw [this, exportEscape_char, ih]
    rfl

theorem entR_eq_entX_of_ne (c : Char) (h : c ≠ '\'') : entX c = entR c := by
  by_cases h1 : c = '&'
  · subst h1; rfl
  · by_cases h2 : c = '<'
    · subst h2; rfl
    · by_cases h3 : c = '>'
      · subst h3; rfl
      · by_cases h4 : c = '"'
        · subst h4; rfl
        · simp [entX, entR, h1, h2, h3, h4, h]

theorem entMapWith_congr (f g : Char → Str) (s : Str) (h : ∀ c ∈ s, f c = g c) :
    entMapWith f s = entMapWith g s := by
  induction s with
  | nil => rfl
  | cons c t ih =>
    show f c ++ entMapWith f t = g c ++ entMapWith g t
    rw [h c (List.mem_cons_self c t), ih (fun x hx => h x (List.mem_cons_of_mem c hx))]

theorem entMapWith_id_of (f : Char → Str) (s : Str) (h : ∀ c ∈ s, f c = [c]) :
    entMapWith f s = s := by
  induction s with
  | nil => rfl
  | cons c t ih =>
    show f c ++ entMapWith f t = c :: t
    rw [h c (List.mem_cons_self c t), ih (fun x hx => h x (List.mem_cons_of_mem c hx))]
    rfl

theorem replC_id_of_not_mem (c : Char) (rep : Str) (s : Str) (h : c ∉ s) :
    replC c rep s = s := by
  induction s with
  | nil => rfl
  | cons x t ih =>
    have hx : x ≠ c := fun hx => h (hx ▸ List.mem_cons_self x t)
    show (if x = c then rep else [x]) ++ replC c rep t = x :: t
    rw [if_neg hx, ih (fun hm => h (List.mem_cons_of_mem x hm))]
    rfl

-- ## C9 : export escape versus the renderer's first pass

/-- C9 counterexample: on a lone apostrophe the export escape and the
renderer's first-pass escape produce different entities. -/
theorem export_escape_differs_on_apostrophe :
    exportEscape ['\''] ≠ escapeHtml ['\'']
    ∧ exportEscape ['\''] = "&apos;".data
    ∧ escapeHtml ['\''] = "&#039;".data := by
  refine ⟨by decide, rfl, rfl⟩

/-- C9 (amended): the export projection is a pure function of template and
values; its escape rewrites exactly the renderer's five special characters
and agrees with the renderer's first pass on every string free of
apostrophes (an apostrophe becomes the apos entity where the renderer emits
the numeric one); newlines become explicit break markup; and text free of
special characters and newlines — in particular image-reference and math
syntax — passes through the section projection unresolved. -/
theorem export_escape_refines_renderer (s : Str) :
    (('\'' ∉ s) → exportEscape s = escapeHtml s)
    ∧ exportEscape s = entMapWith entX s
    ∧ (∀ c : Char, ¬ specialHtmlChar c → entX c = [c])
    ∧ (('\n' ∉ s ∧ ∀ c ∈ s, ¬ specialHtmlChar c) → exportSectionContent s = s) := by
  refine ⟨?_, exportEscape_eq_entMap s, ?_, ?_⟩
  · intro h
    rw [exportEscape_eq_entMap, escapeHtml_eq_entMap]
    exact entMapWith_congr entX entR s
      (fun c hc => entR_eq_entX_of_ne c (fun he => h (he ▸ hc)))
  · intro c hc
    simp only [specialHtmlChar, not_or] at hc
    simp [entX, hc.1, hc.2.1, hc.2.2.1, hc.2.2.2.1, hc.2.2.2.2]
  · rintro ⟨hnl, hsp⟩
    have he : exportEscape s = s := by
      rw [exportEscape_eq_entMap]
      refine entMapWith_id_of entX s (fun c hc => ?_)
      have := hsp c hc
      simp only [specialHtmlChar, not_or] at this
      simp [entX, this.1, this.2.1, this.2.2.1, this.2.2.2.1, this.2.2.2.2]
    rw [exportSectionContent, he, replC_id_of_not_mem '\n' wordBreakXml s hnl]

theorem export_escape_refines_renderer_witness :
    ('\'' ∉ demoExportText ∧ '\n' ∉ demoExportText
      ∧ ∀ c ∈ demoExportText, ¬ specialHtmlChar c)
    ∧ exportEscape demoExportText = escapeHtml demoExportText
    ∧ exportSectionContent demoExportText = demoExportText :=
  ⟨⟨by decide, by decide, by decide⟩,
    (export_escape_refines_renderer demoExportText).1 (by decide),
    (export_escape_refines_renderer demoExportText).2.2.2 ⟨by decide, by decide⟩⟩
/-- C2 (evaluation at the failing input): resolving an existing attachment
reference emits the internal placeholder, but the placeholder's own
double-dollar sentinels are then consumed as block-math delimiters by
pass 3, so the final pipeline output (with the fallback math capability) is
the mangled placeholder text and contains no img element; the
broken-reference branch does produce its visible marker. -/
theorem image_reference_mangled_by_math_pass :
    render rmRaw c2Att "![fig](attachment:a1)".data
        = "IMG_STARTXYIMG_SEPfigIMG_END".data
    ∧ hasSubB "<img".data (render rmRaw c2Att "![fig](attachment:a1)".data) = false
    ∧ render rmRaw [] "![x](attachment:zz)".data = "[Broken Image: x]".data := by
  refine ⟨by decide, by decide, by decide⟩

-- ## C3 : math segmentation

theorem isPrefB_head_eq {p l : Char} {ps ls : Str} (h : isPrefB (p :: ps) (l :: ls) = true) :
    p = l := by
  by_cases hpl : p = l
  · exact hpl
  · simp [isPrefB, hpl] at h

theorem materializeF_id_of_no_dollar (fuel : Nat) :
    ∀ s : Str, '$' ∉ s → materializeF fuel s = s := by
  induction fuel with
  | zero => intro s _; rfl
  | succ f ih =>
    intro s h
    cases s with
    | nil => rfl
    | cons c t =>
      have hc : c ≠ '$' := fun hcc => h (by simp [hcc])
      have hpre : isPrefB imgStartS (c :: t) = false := by
        cases hp : isPrefB imgStartS (c :: t)
        · rfl
        · have h0 : imgStartS = '$' :: ('$' :: "IMG_START$$".data) := rfl
          rw [h0] at hp
          exact absurd (isPrefB_head_eq hp).symm hc
      simp only [materializeF, hpre, Bool.false_eq_true, if_false]
      exact congrArg (c :: ·) (ih t (fun hm => h (List.mem_cons_of_mem c hm)))

/-- C3: splitting "$$a$$ and $b$" produces exactly two math segments,
rendered independently through the capability — the block one in display
mode, the inline one in inline mode — while an unterminated opening
delimiter as in "$c" survives as literal text (newlines still becoming
break tags), and the pipeline is total throughout. -/
theorem math_segmentation_behaviour (rm : Str → Bool → Str)
    (hrm : ∀ m d, '$' ∉ rm m d) :
    mathCalls (replImgs [] (escapeHtml "$$a$$ and $b$".data))
        = [(['a'], true), (['b'], false)]
    ∧ render rm [] "$$a$$ and $b$".data
        = rm ['a'] true ++ " and ".data ++ rm ['b'] false
    ∧ render rm [] "$c".data = "$c".data
    ∧ render rm [] "$c\nd".data = "$c<br/>d".data := by
  refine ⟨by decide, ?_, rfl, rfl⟩
  have hstage : mathJoin rm (replImgs [] (escapeHtml "$$a$$ and $b$".data))
      = rm ['a'] true ++ (" and ".data ++ (rm ['b'] false ++ [])) := rfl
  have hnd : '$' ∉ rm ['a'] true ++ (" and ".data ++ (rm ['b'] false ++ [])) := by
    intro hm
    rcases List.mem_append.mp hm with h1 | h2
    · exact hrm ['a'] true h1
    · rcases List.mem_append.mp h2 with h3 | h4
      · revert h3; decide
      · rcases List.mem_append.mp h4 with h5 | h6
        · exact hrm ['b'] false h5
        · cases h6
  show materialize (mathJoin rm (replImgs [] (escapeHtml "$$a$$ and $b$".data)))
      = rm ['a'] true ++ " and ".data ++ rm ['b'] false
  rw [hstage]
  have hid : materialize (rm ['a'] true ++ (" and ".data ++ (rm ['b'] false ++ [])))
      = rm ['a'] true ++ (" and ".data ++ (rm ['b'] false ++ [])) :=
    materializeF_id_of_no_dollar _ _ hnd
  rw [hid]
  simp

theorem math_segmentation_behaviour_witness :
    (∀ m d, '$' ∉ rmConst m d) ∧
    (mathCalls (replImgs [] (escapeHtml "$$a$$ and $b$".data))
        = [(['a'], true), (['b'], false)]
    ∧ render rmConst [] "$$a$$ and $b$".data
        = rmConst ['a'] true ++ " and ".data ++ rmConst ['b'] false
    ∧ render rmConst [] "$c".data = "$c".data
    ∧ render rmConst [] "$c\nd".data = "$c<br/>d".data) :=
  ⟨fun m d => by simp [rmConst],
    math_segmentation_behaviour rmConst (fun m d => by simp [rmConst])⟩

-- ## Substring infrastructure for the injection-safety claim

theorem isPrefB_iff (p : Str) : ∀ s, isPrefB p s = true ↔ ∃ t, s = p ++ t := by
  induction p with
  | nil =>
    intro s
    simp only [isPrefB, true_iff]
    exact ⟨s, rfl⟩
  | cons a ps ih =>
    intro s
    cases s with
    | nil =>
      constructor
      · intro h; exact absurd h (by simp [isPrefB])
      · rintro ⟨t, ht⟩; exact absurd ht (by simp)
    | cons b bs =>
      constructor
      · intro h
        by_cases hab : a = b
        · subst hab
          have h' : isPrefB ps bs = true := by simpa [isPrefB] using h
          obtain ⟨t, ht⟩ := (ih bs).mp h'
          exact ⟨t, by simp [ht]⟩
        · exact absurd h (by simp [isPrefB, hab])
      · rintro ⟨t, ht⟩
        injection ht with h1 h2
        subst h1
        have : isPrefB ps bs = true := (ih bs).mpr ⟨t, h2⟩
        simp [isPrefB, this]

theorem isSufB_iff (p s : Str) : isSufB p s = true ↔ ∃ t, s = t ++ p := by
  rw [isSufB, isPrefB_iff]
  constructor
  · rintro ⟨t, ht⟩
    refine ⟨t.reverse, ?_⟩
    have := congrArg List.reverse ht
    simpa using this
  · rintro ⟨t, ht⟩
    exact ⟨t.reverse, by simp [ht]⟩

theorem hasSubB_iff (pat : Str) : ∀ s, hasSubB pat s = true ↔ ∃ x y, s = x ++ (pat ++ y) := by
  intro s
  induction s with
  | nil =>
    simp only [hasSubB, isPrefB_iff]
    constructor
    · rintro ⟨t, ht⟩
      exact ⟨[], t, ht⟩
    · rintro ⟨x, y, hxy⟩
      cases x with
      | nil => exact ⟨y, hxy⟩
      | cons a b => simp at hxy
  | cons c t ih =>
    simp only [hasSubB, Bool.or_eq_true, isPrefB_iff, ih]
    constructor
    · rintro (⟨u, hu⟩ | ⟨x, y, hxy⟩)
      · exact ⟨[], u, hu⟩
      · exact ⟨c :: x, y, by simp [hxy]⟩
    · rintro ⟨x, y, hxy⟩
      cases x with
      | nil => exact Or.inl ⟨y, by simpa using hxy⟩
      | cons a b =>
        obtain ⟨h1, h2⟩ : c = a ∧ t = b ++ (pat ++ y) := by simpa using hxy
        exact Or.inr ⟨b, y, h2⟩

theorem pieceSafe_nil : PieceSafe [] := by
  refine ⟨fun x y h => ?_, fun x h => ?_, fun x h => ?_⟩ <;> simp [ltsc] at h

theorem pieceSafe_of_no_lt {s : Str} (h : '<' ∉ s) : PieceSafe s := by
  refine ⟨fun x y hxy => ?_, fun x hx => ?_, fun x hx => ?_⟩
  · rw [hxy] at h; simp [ltsc] at h
  · rw [hx] at h; simp at h
  · rw [hx] at h; simp at h

theorem pieceSafe_of_bool {s : Str}
    (h1 : hasSubB ltsc s = false) (h2 : isSufB ['<'] s = false)
    (h3 : isSufB ['<', 's'] s = false) : PieceSafe s := by
  refine ⟨fun x y hxy => ?_, fun x hx => ?_, fun x hx => ?_⟩
  · rw [(hasSubB_iff ltsc s).mpr ⟨x, y, hxy⟩] at h1; cases h1
  · rw [(isSufB_iff ['<'] s).mpr ⟨x, hx⟩] at h2; cases h2
  · rw [(isSufB_iff ['<', 's'] s).mpr ⟨x, hx⟩] at h3; cases h3

theorem noLtsc_append {a b : Str} (ha : NoLtsc a) (hb : NoLtsc b) (hta : SafeTail a) :
    NoLtsc (a ++ b) := by
  intro x y hxy
  rcases List.append_eq_append_iff.mp hxy with ⟨u, hxu, hbu⟩ | ⟨u, hau, hub⟩
  · exact hb u y hbu
  · match u, hub with
    | [], h' => exact hb [] y (by simpa using h'.symm)
    | [c1], h' =>
      obtain ⟨e1, _⟩ : '<' = c1 ∧ ('s' :: 'c' :: y) = b := by simpa [ltsc] using h'
      exact hta.1 x (by rw [hau, ← e1])
    | [c1, c2], h' =>
      obtain ⟨e1, e2, _⟩ : '<' = c1 ∧ 's' = c2 ∧ 'c' :: y = b := by simpa [ltsc] using h'
      exact hta.2 x (by rw [hau, ← e1, ← e2])
    | c1 :: c2 :: c3 :: r, h' =>
      obtain ⟨e1, e2, e3, _⟩ : '<' = c1 ∧ 's' = c2 ∧ 'c' = c3 ∧ y = r ++ b := by
        simpa [ltsc] using h'
      exact ha x r (by rw [hau, ← e1, ← e2, ← e3]; simp [ltsc])

theorem safeTail_append {a b : Str} (hta : SafeTail a) (htb : SafeTail b) :
    SafeTail (a ++ b) := by
  constructor
  · intro x hx
    rcases List.append_eq_append_iff.mp hx with ⟨u, hxu, hbu⟩ | ⟨u, hau, hub⟩
    · exact htb.1 u hbu
    · match u, hub with
      | [], h' => exact htb.1 [] (by simpa using h'.symm)
      | [c1], h' =>
        obtain ⟨e1, e2⟩ : '<' = c1 ∧ [] = b := by simpa using h'
        exact hta.1 x (by rw [hau, ← e1])
  · intro x hx
    rcases List.append_eq_append_iff.mp hx with ⟨u, hxu, hbu⟩ | ⟨u, hau, hub⟩
    · exact htb.2 u hbu
    · match u, hub with
      | [], h' => exact htb.2 [] (by simpa using h'.symm)
      | [c1], h' =>
        obtain ⟨e1, e2⟩ : '<' = c1 ∧ ['s'] = b := by simpa using h'
        exact hta.1 x (by rw [hau, ← e1])
      | [c1, c2], h' =>
        obtain ⟨e1, e2, e3⟩ : '<' = c1 ∧ 's' = c2 ∧ [] = b := by simpa using h'
        exact hta.2 x (by rw [hau, ← e1, ← e2])

theorem pieceSafe_append {a b : Str} (ha : PieceSafe a) (hb : PieceSafe b) :
    PieceSafe (a ++ b) :=
  ⟨noLtsc_append ha.1 hb.1 ha.2, safeTail_append ha.2 hb.2⟩

theorem pieceSafe_joinAll (L : List Str) (h : ∀ p ∈ L, PieceSafe p) :
    PieceSafe (joinAll L) := by
  induction L with
  | nil => exact pieceSafe_nil
  | cons p t ih =>
    exact pieceSafe_append (h p (List.mem_cons_self p t))
      (ih (fun q hq => h q (List.mem_cons_of_mem p hq)))

theorem no_script_of_pieceSafe {s : Str} (h : PieceSafe s) :
    hasSubB "<script".data s = false := by
  cases hs : hasSubB "<script".data s
  · rfl
  · obtain ⟨x, y, hxy⟩ := (hasSubB_iff _ s).mp hs
    exact absurd hxy (h.1 x ("ript".data ++ y))

-- ## Character-class facts about the escape pass

theorem entR_head_amp {c : Char} (h : specialHtmlChar c) :
    ∃ t, entR c = '&' :: t := by
  rcases h with h|h|h|h|h <;> subst h <;> exact ⟨_, rfl⟩

theorem entR_id_of_not_special {c : Char} (h : ¬ specialHtmlChar c) : entR c = [c] := by
  simp only [specialHtmlChar, not_or] at h
  simp [entR, h.1, h.2.1, h.2.2.1, h.2.2.2.1, h.2.2.2.2]

theorem notMem_entR {ch : Char} (hch : ch = '<' ∨ ch = '>' ∨ ch = '"' ∨ ch = '\'')
    (c : Char) : ch ∉ entR c := by
  by_cases hs : specialHtmlChar c
  · rcases hs with h|h|h|h|h <;> subst h <;>
      (rcases hch with h|h|h|h <;> subst h <;> decide)
  · rw [entR_id_of_not_special hs]
    intro hm
    have he : ch = c := List.mem_singleton.mp hm
    apply hs
    rw [← he]
    rcases hch with h|h|h|h <;> subst h <;> simp [specialHtmlChar]

theorem mem_entMapWith {ch : Char} {f : Char → Str} {s : Str} (h : ch ∈ entMapWith f s) :
    ∃ c ∈ s, ch ∈ f c := by
  induction s with
  | nil => simp [entMapWith] at h
  | cons c t ih =>
    simp only [entMapWith] at h
    rcases List.mem_append.mp h with h1 | h2
    · exact ⟨c, List.mem_cons_self c t, h1⟩
    · obtain ⟨c', hc', hm⟩ := ih h2
      exact ⟨c', List.mem_cons_of_mem c hc', hm⟩

theorem mem_entMapWith_of_mem {ch : Char} {f : Char → Str} {s : Str} (h : ch ∈ s)
    (hf : ch ∈ f ch) : ch ∈ entMapWith f s := by
  induction s with
  | nil => cases h
  | cons c t ih =>
    simp only [entMapWith, List.mem_append]
    rcases List.mem_cons.mp h with rfl | h'
    · exact Or.inl hf
    · exact Or.inr (ih h')

theorem escapeHtml_not_mem {ch : Char}
    (hch : ch = '<' ∨ ch = '>' ∨ ch = '"' ∨ ch = '\'') (s : Str) :
    ch ∉ escapeHtml s := by
  rw [escapeHtml_eq_entMap]
  intro hm
  obtain ⟨c, _, hc⟩ := mem_entMapWith hm
  exact notMem_entR hch c hc

theorem dollar_entR {c : Char} (h : '$' ∈ entR c) : c = '$' := by
  by_cases hs : specialHtmlChar c
  · rcases hs with h'|h'|h'|h'|h' <;> subst h' <;> (exfalso; revert h; decide)
  · rw [entR_id_of_not_special hs] at h
    exact (List.mem_singleton.mp h).symm

theorem newline_entR {c : Char} (h : '\n' ∈ entR c) : c = '\n' := by
  by_cases hs : specialHtmlChar c
  · rcases hs with h'|h'|h'|h'|h' <;> subst h' <;> (exfalso; revert h; decide)
  · rw [entR_id_of_not_special hs] at h
    exact (List.mem_singleton.mp h).symm

theorem escapeHtml_no_dollar {s : Str} (h : '$' ∉ s) : '$' ∉ escapeHtml s := by
  rw [escapeHtml_eq_entMap]
  intro hm
  obtain ⟨c, hc, hce⟩ := mem_entMapWith hm
  exact h (dollar_entR hce ▸ hc)

-- ## Decomposition of successful image-pattern matches

theorem lookupS_mem {st : Store} : ∀ {k v : Str}, lookupS st k = some v → (k, v) ∈ st := by
  induction st with
  | nil => intro k v h; simp [lookupS] at h
  | cons p t ih =>
    intro k v h
    obtain ⟨k', v'⟩ := p
    by_cases hk : k' = k
    · subst hk
      simp only [lookupS, if_pos rfl] at h
      injection h with h'
      subst h'
      exact List.mem_cons_self _ _
    · simp only [lookupS, if_neg hk] at h
      exact List.mem_cons_of_mem _ (ih h)
theorem isPrefB_drop_eq {p l : Str} (h : isPrefB p l = true) :
    l = p ++ l.drop p.length := by
  obtain ⟨t, ht⟩ := (isPrefB_iff p l).mp h
  rw [ht, List.drop_left]

theorem findParen_eq (l : Str) :
    ∀ i r, findParen l = some (i, r) → l = i ++ ')' :: r ∧ '\n' ∉ i := by
  induction l using findParen.induct with
  | case1 => intro i r h; simp [findParen] at h
  | case2 => intro i r h; simp_all [findParen]
  | case3 => intro i r h; simp_all [findParen]
  | case4 =>
    rename_i c t hcp hcn ih
    intro i r h
    simp only [findParen, if_neg hcp, if_neg hcn, Option.map_eq_some'] at h
    obtain ⟨⟨a, b⟩, ha, hab⟩ := h
    cases hab
    obtain ⟨ht, hn⟩ := ih a b ha
    refine ⟨by simp [ht], ?_⟩
    intro hmem
    rcases List.mem_cons.mp hmem with h' | h'
    · exact hcn h'.symm
    · exact hn h'

theorem findAlt_eq (l : Str) :
    ∀ a i r, findAlt l = some (a, i, r) →
      l = a ++ (attMarker ++ (i ++ ')' :: r)) ∧ '\n' ∉ a ∧ '\n' ∉ i := by
  induction l using findAlt.induct with
  | case1 => intro a i r h; simp [findAlt] at h
  | case2 =>
    rename_i c t hpre idPart rest hfp
    intro a i r h
    simp only [findAlt, if_pos hpre, hfp] at h
    obtain ⟨h1, h2, h3⟩ : ([] : Str) = a ∧ idPart = i ∧ rest = r := by simpa using h
    subst h1; subst h2; subst h3
    have hdrop : (c :: t) = attMarker ++ (c :: t).drop 13 := by
      have := isPrefB_drop_eq hpre
      simpa [attMarker] using this
    obtain ⟨hp, hni⟩ := findParen_eq _ _ _ hfp
    refine ⟨?_, by simp, hni⟩
    rw [List.nil_append]
    rw [hdrop, hp]
  | case3 =>
    rename_i t hpre hfp
    intro a i r h
    simp only [findAlt, if_pos hpre, hfp] at h
    simp at h
  | case4 =>
    rename_i c t hpre hfp hcn ih
    intro a i r h
    simp only [findAlt, if_pos hpre, hfp, if_neg hcn, Option.map_eq_some'] at h
    obtain ⟨⟨a', i', r'⟩, ha, hab⟩ := h
    cases hab
    obtain ⟨ht, hna, hni⟩ := ih a' i' r' ha
    refine ⟨by simp [ht], ?_, hni⟩
    intro hmem
    rcases List.mem_cons.mp hmem with h' | h'
    · exact hcn h'.symm
    · exact hna h'
  | case5 =>
    rename_i t hpre
    intro a i r h
    simp only [findAlt, if_neg hpre] at h
    simp at h
  | case6 =>
    rename_i c t hpre hcn ih
    intro a i r h
    simp only [findAlt, if_neg hpre, if_neg hcn, Option.map_eq_some'] at h
    obtain ⟨⟨a', i', r'⟩, ha, hab⟩ := h
    cases hab
    obtain ⟨ht, hna, hni⟩ := ih a' i' r' ha
    refine ⟨by simp [ht], ?_, hni⟩
    intro hmem
    rcases List.mem_cons.mp hmem with h' | h'
    · exact hcn h'.symm
    · exact hna h'

-- ## Step equations for the scanners with overlapping patterns

theorem replImgsF_cons_ne (att : AttStore) (fuel : Nat) (c : Char) (t : Str)
    (hne : ∀ t', ¬(c = '!' ∧ t = '[' :: t')) :
    replImgsF att (fuel + 1) (c :: t) = c :: replImgsF att fuel t := by
  rw [replImgsF.eq_def]
  split
  · omega
  · simp_all
  · rename_i n t' heq1 heq2
    exfalso
    injection heq2 with e1 e2
    exact hne t' ⟨e1, e2⟩
  · rename_i n c' t' hnn heq1 heq2
    injection heq2 with e1 e2
    subst e1; subst e2
    have : n = fuel := by omega
    subst this
    rfl

theorem replImgsF_bang (att : AttStore) (fuel : Nat) (t : Str) :
    replImgsF att (fuel + 1) ('!' :: '[' :: t) =
      (match findAlt t with
       | some (alt, id, rest) =>
         (match lookupS att id with
          | some src => imgStartS ++ src ++ imgSepS ++ alt ++ imgEndS
          | none => brokenImgS ++ alt ++ [']']) ++ replImgsF att fuel rest
       | none => '!' :: replImgsF att fuel ('[' :: t)) := rfl

theorem findDD_cons_ne (c : Char) (t : Str)
    (hne : ∀ t', ¬(c = '$' ∧ t = '$' :: t')) :
    findDD (c :: t) = (findDD t).map (fun p => (c :: p.1, p.2)) := by
  rw [findDD.eq_def]
  split
  · simp_all
  · rename_i t' heq
    exfalso
    injection heq with e1 e2
    exact hne t' ⟨e1, e2⟩
  · rename_i c' t' hnn heq
    injection heq with e1 e2
    subst e1; subst e2
    rfl

theorem findD_eq (l : Str) :
    ∀ i r, findD l = some (i, r) → l = i ++ '$' :: r := by
  induction l using findD.induct with
  | case1 => intro i r h; simp [findD] at h
  | case2 => intro i r h; simp_all [findD]
  | case3 =>
    rename_i c t hc ih
    intro i r h
    simp only [findD, if_neg hc, Option.map_eq_some'] at h
    obtain ⟨⟨a, b⟩, ha, hab⟩ := h
    cases hab
    simp [ih a b ha]

theorem findDD_eq (l : Str) :
    ∀ i r, findDD l = some (i, r) → l = i ++ '$' :: '$' :: r := by
  induction l using findDD.induct with
  | case1 => intro i r h; simp [findDD] at h
  | case2 =>
    rename_i t
    intro i r h
    simp only [findDD] at h
    obtain ⟨h1, h2⟩ : ([] : Str) = i ∧ t = r := by simpa using h
    subst h1; subst h2
    rfl
  | case3 =>
    rename_i c t hnn ih
    intro i r h
    rw [findDD_cons_ne c t (fun t' hct => hnn t' hct.1 hct.2)] at h
    rw [Option.map_eq_some'] at h
    obtain ⟨⟨a, b⟩, ha, hab⟩ := h
    cases hab
    simp [ih a b ha]

theorem matchMathAt_eq {l d r : Str} (h : matchMathAt l = some (d, r)) :
    l = d ++ r ∧ d ≠ [] := by
  rw [matchMathAt.eq_def] at h
  split at h
  · rename_i t
    cases hdd : findDD t with
    | some p =>
      obtain ⟨inner, rest⟩ := p
      rw [hdd] at h
      simp only [Option.some.injEq, Prod.mk.injEq] at h
      obtain ⟨h1, h2⟩ := h
      subst h1; subst h2
      have := findDD_eq t inner rest hdd
      constructor
      · rw [this]; simp
      · simp
    | none =>
      rw [hdd] at h
      simp only [Option.some.injEq, Prod.mk.injEq] at h
      obtain ⟨h1, h2⟩ := h
      subst h1; subst h2
      exact ⟨rfl, by simp⟩
  · rename_i t hnn
    cases hd : findD t with
    | some p =>
      obtain ⟨inner, rest⟩ := p
      rw [hd] at h
      simp only [Option.some.injEq, Prod.mk.injEq] at h
      obtain ⟨h1, h2⟩ := h
      subst h1; subst h2
      have := findD_eq t inner rest hd
      constructor
      · rw [this]; simp
      · simp
    | none => rw [hd] at h; cases h
  · cases h

theorem matchMathAt_none {c : Char} (t : Str) (hc : c ≠ '$') :
    matchMathAt (c :: t) = none := by
  rw [matchMathAt.eq_def]
  split
  all_goals first
  | rfl
  | (rename_i heq; exfalso; injection heq with e1 e2; exact hc e1)

-- ## The image pass preserves absence of markup-significant characters

theorem replImgsF_not_mem (att : AttStore) (ch : Char)
    (h1 : ch ∉ imgStartS) (h2 : ch ∉ imgSepS) (h3 : ch ∉ imgEndS)
    (h4 : ch ∉ brokenImgS) (h5 : ch ≠ ']')
    (hatt : ∀ p ∈ att, ch ∉ p.2) (fuel : Nat) (s : Str) :
    ch ∉ s → ch ∉ replImgsF att fuel s := by
  induction fuel, s using replImgsF.induct att with
  | case1 => exact fun h => h
  | case2 => intro _ hm; simp [replImgsF] at hm
  | case3 =>
    rename_i fuel t alt id rest hfa ih
    intro h hm
    obtain ⟨ht, _, _⟩ := findAlt_eq t alt id rest hfa
    have hnt : ch ∉ t := fun hx => h (by simp [hx])
    have hnalt : ch ∉ alt := fun hx => hnt (by rw [ht]; simp [hx])
    have hnrest : ch ∉ rest := fun hx => hnt (by rw [ht]; simp [hx])
    cases hl : lookupS att id with
    | some src =>
      have hnsrc : ch ∉ src := hatt (id, src) (lookupS_mem hl)
      simp only [replImgsF_bang, hfa, hl, List.mem_append] at hm
      rcases hm with ((((hm|hm)|hm)|hm)|hm)|hm
      · exact h1 hm
      · exact hnsrc hm
      · exact h2 hm
      · exact hnalt hm
      · exact h3 hm
      · exact ih hnrest hm
    | none =>
      simp only [replImgsF_bang, hfa, hl, List.mem_append] at hm
      rcases hm with ((hm|hm)|hm)|hm
      · exact h4 hm
      · exact hnalt hm
      · exact h5 (List.mem_singleton.mp hm)
      · exact ih hnrest hm
  | case4 =>
    rename_i fuel t hfa ih
    intro h hm
    simp only [replImgsF_bang, hfa] at hm
    rcases List.mem_cons.mp hm with he | hm'
    · exact h (by simp [he])
    · exact ih (fun hx => h (List.mem_cons_of_mem _ hx)) hm'
  | case5 =>
    rename_i fuel c t hnn ih
    intro h hm
    rw [replImgsF_cons_ne att fuel c t (fun t' hct => hnn t' hct.1 hct.2)] at hm
    rcases List.mem_cons.mp hm with he | hm'
    · exact h (by simp [he])
    · exact ih (fun hx => h (List.mem_cons_of_mem _ hx)) hm'

-- ## The math split partitions its input

theorem consText_join (c : Char) (P : List (Bool × Str)) :
    joinAll ((consText c P).map Prod.snd) = c :: joinAll (P.map Prod.snd) := by
  match P with
  | [] => rfl
  | (false, tx) :: ps => rfl
  | (true, d) :: ps => rfl

theorem mathSplitF_join (fuel : Nat) (s : Str) :
    joinAll ((mathSplitF fuel s).map Prod.snd) = s := by
  induction fuel generalizing s with
  | zero =>
    by_cases hs : s = []
    · subst hs; rfl
    · simp [mathSplitF, hs, joinAll]
  | succ f ih =>
    cases s with
    | nil => rfl
    | cons c t =>
      cases hm : matchMathAt (c :: t) with
      | some p =>
        obtain ⟨d, rest⟩ := p
        obtain ⟨heq, hne⟩ := matchMathAt_eq hm
        simp only [mathSplitF, hm, List.map_cons, joinAll, ih]
        exact heq.symm
      | none =>
        simp only [mathSplitF, hm, consText_join, ih]

theorem mem_joinAll {ch : Char} {L : List Str} {p : Str} (hp : p ∈ L) (hc : ch ∈ p) :
    ch ∈ joinAll L := by
  induction L with
  | nil => cases hp
  | cons q t ih =>
    simp only [joinAll, List.mem_append]
    rcases List.mem_cons.mp hp with rfl | h'
    · exact Or.inl hc
    · exact Or.inr (ih h')

theorem mathSplitF_part_mem {fuel : Nat} {s : Str} {p : Bool × Str}
    (hp : p ∈ mathSplitF fuel s) {ch : Char} (hc : ch ∈ p.2) : ch ∈ s := by
  rw [← mathSplitF_join fuel s]
  exact mem_joinAll (List.mem_map_of_mem Prod.snd hp) hc

-- ## The math-slice unescaping introduces only angle brackets

theorem unescLt_cons_ne (c : Char) (t : Str)
    (hne : ∀ t', ¬(c = '&' ∧ t = 'l' :: 't' :: ';' :: t')) :
    unescLt (c :: t) = c :: unescLt t := by
  rw [unescLt.eq_def]
  split
  · rename_i t' heq
    exfalso
    injection heq with e1 e2
    exact hne t' ⟨e1, e2⟩
  · rename_i c' t' hnn heq
    injection heq with e1 e2
    subst e1; subst e2
    rfl
  · rename_i heq
    exact absurd heq (by simp)

theorem unescGt_cons_ne (c : Char) (t : Str)
    (hne : ∀ t', ¬(c = '&' ∧ t = 'g' :: 't' :: ';' :: t')) :
    unescGt (c :: t) = c :: unescGt t := by
  rw [unescGt.eq_def]
  split
  · rename_i t' heq
    exfalso
    injection heq with e1 e2
    exact hne t' ⟨e1, e2⟩
  · rename_i c' t' hnn heq
    injection heq with e1 e2
    subst e1; subst e2
    rfl
  · rename_i heq
    exact absurd heq (by simp)

theorem mem_unescLt {ch : Char} : ∀ {s : Str}, ch ∈ unescLt s → ch ∈ s ∨ ch = '<' := by
  intro s
  induction s using unescLt.induct with
  | case1 =>
    rename_i t ih
    intro h
    rw [show unescLt ('&' :: 'l' :: 't' :: ';' :: t) = '<' :: unescLt t from rfl] at h
    rcases List.mem_cons.mp h with rfl | h'
    · exact Or.inr rfl
    · rcases ih h' with h'' | h''
      · exact Or.inl (by simp [h''])
      · exact Or.inr h''
  | case2 =>
    rename_i c t hnn ih
    intro h
    rw [unescLt_cons_ne c t (fun t' hct => hnn t' hct.1 hct.2)] at h
    rcases List.mem_cons.mp h with rfl | h'
    · exact Or.inl (List.mem_cons_self _ _)
    · rcases ih h' with h'' | h''
      · exact Or.inl (List.mem_cons_of_mem _ h'')
      · exact Or.inr h''
  | case3 => intro h; cases h

theorem mem_unescGt {ch : Char} : ∀ {s : Str}, ch ∈ unescGt s → ch ∈ s ∨ ch = '>' := by
  intro s
  induction s using unescGt.induct with
  | case1 =>
    rename_i t ih
    intro h
    rw [show unescGt ('&' :: 'g' :: 't' :: ';' :: t) = '>' :: unescGt t from rfl] at h
    rcases List.mem_cons.mp h with rfl | h'
    · exact Or.inr rfl
    · rcases ih h' with h'' | h''
      · exact Or.inl (by simp [h''])
      · exact Or.inr h''
  | case2 =>
    rename_i c t hnn ih
    intro h
    rw [unescGt_cons_ne c t (fun t' hct => hnn t' hct.1 hct.2)] at h
    rcases List.mem_cons.mp h with rfl | h'
    · exact Or.inl (List.mem_cons_self _ _)
    · rcases ih h' with h'' | h''
      · exact Or.inl (List.mem_cons_of_mem _ h'')
      · exact Or.inr h''
  | case3 => intro h; cases h

theorem mem_unescMath {ch : Char} {s : Str} (h : ch ∈ unescMath s) :
    ch ∈ s ∨ ch = '<' ∨ ch = '>' := by
  rcases mem_unescGt h with h' | h'
  · rcases mem_unescLt h' with h'' | h''
    · exact Or.inl h''
    · exact Or.inr (Or.inl h'')
  · exact Or.inr (Or.inr h')

theorem mem_replC {ch : Char} {c : Char} {rep : Str} :
    ∀ {s : Str}, ch ∈ replC c rep s → ch ∈ s ∨ ch ∈ rep := by
  intro s
  induction s with
  | nil => intro h; cases h
  | cons x t ih =>
    intro h
    simp only [replC, List.mem_append] at h
    rcases h with h' | h'
    · by_cases hx : x = c
      · rw [if_pos hx] at h'
        exact Or.inr h'
      · rw [if_neg hx] at h'
        exact Or.inl (by simp [List.mem_singleton.mp h'])
    · rcases ih h' with h'' | h''
      · exact Or.inl (List.mem_cons_of_mem _ h'')
      · exact Or.inr h''

-- ## Safety of rendered parts and their join

theorem replC_br_safe {p : Str} (h : '<' ∉ p) :
    PieceSafe (replC '\n' "<br/>".data p) := by
  induction p with
  | nil => exact pieceSafe_nil
  | cons c t ih =>
    have hc : c ≠ '<' := fun hcc => h (by simp [hcc])
    have ht : '<' ∉ t := fun hx => h (List.mem_cons_of_mem _ hx)
    show PieceSafe ((if c = '\n' then "<br/>".data else [c]) ++ replC '\n' "<br/>".data t)
    refine pieceSafe_append ?_ (ih ht)
    by_cases hn : c = '\n'
    · rw [if_pos hn]
      exact pieceSafe_of_bool (by decide) (by decide) (by decide)
    · rw [if_neg hn]
      refine pieceSafe_of_no_lt ?_
      simp only [List.mem_singleton]
      exact fun e => hc e.symm

theorem renderPart_safe (rm : Str → Bool → Str)
    (hrm : ∀ m d, PieceSafe (rm m d)) {p : Str} (h : '<' ∉ p) :
    PieceSafe (renderPart rm p) := by
  unfold renderPart
  split
  · exact hrm _ _
  · split
    · exact hrm _ _
    · exact replC_br_safe h

theorem mathJoin_safe (rm : Str → Bool → Str) (hrm : ∀ m d, PieceSafe (rm m d))
    {s : Str} (h : '<' ∉ s) : PieceSafe (mathJoin rm s) := by
  refine pieceSafe_joinAll _ (fun q hq => ?_)
  obtain ⟨p, hp, rfl⟩ := List.mem_map.mp hq
  refine renderPart_safe rm hrm ?_
  exact fun hx => h (mathSplitF_part_mem hp hx)

theorem mem_sliceBoth {ch : Char} {n : Nat} {s : Str} (h : ch ∈ sliceBoth n s) :
    ch ∈ s := by
  unfold sliceBoth at h
  exact List.mem_of_mem_drop (List.mem_of_mem_take h)

/-- Math-segment arguments keep quotes escaped: a call argument contains a
character only if the character was in the pass input or is an angle
bracket reintroduced by the dedicated unescaping. -/
theorem mathCalls_no_quote {s : Str} (h1 : '"' ∉ s) (h2 : '\'' ∉ s) :
    ∀ call ∈ mathCalls s, '"' ∉ call.1 ∧ '\'' ∉ call.1 := by
  intro call hc
  unfold mathCalls at hc
  obtain ⟨p, hp, he⟩ := List.mem_filterMap.mp hc
  have hps : ∀ ch : Char, ch ∈ p.2 → ch ∈ s := fun ch => mathSplitF_part_mem hp
  have key : ∀ ch : Char, ch ≠ '<' → ch ≠ '>' → ch ∉ s → ch ∉ call.1 := by
    intro ch hlt hgt hs hmem
    split at he
    · cases he
      rcases mem_unescMath hmem with h' | h' | h'
      · exact hs (hps ch (mem_sliceBoth h'))
      · exact hlt h'
      · exact hgt h'
    · split at he
      · cases he
        rcases mem_unescMath hmem with h' | h' | h'
        · exact hs (hps ch (mem_sliceBoth h'))
        · exact hlt h'
        · exact hgt h'
      · cases he
  exact ⟨key '"' (by decide) (by decide) h1, key '\'' (by decide) (by decide) h2⟩

-- ## Decomposition of successful placeholder matches (pass 4)

theorem findStop_eq (stop : Str) (l : Str) :
    ∀ cap r, findStop stop l = some (cap, r) →
      l = cap ++ (stop ++ r) ∧ '\n' ∉ cap := by
  induction l using findStop.induct stop with
  | case1 => intro cap r h; simp [findStop] at h
  | case2 =>
    rename_i c t hpre
    intro cap r h
    simp only [findStop, if_pos hpre] at h
    obtain ⟨h1, h2⟩ : ([] : Str) = cap ∧ (c :: t).drop stop.length = r := by simpa using h
    subst h1; subst h2
    refine ⟨?_, by simp⟩
    rw [List.nil_append]
    exact isPrefB_drop_eq hpre
  | case3 =>
    rename_i t hpre
    intro cap r h
    simp only [findStop, if_neg hpre] at h
    simp at h
  | case4 =>
    rename_i c t hpre hcn ih
    intro cap r h
    simp only [findStop, if_neg hpre, if_neg hcn, Option.map_eq_some'] at h
    obtain ⟨⟨a, b⟩, ha, hab⟩ := h
    cases hab
    obtain ⟨ht, hn⟩ := ih a b ha
    refine ⟨by simp [ht], ?_⟩
    intro hmem
    rcases List.mem_cons.mp hmem with h' | h'
    · exact hcn h'.symm
    · exact hn h'

theorem findSrcAlt_eq (l : Str) :
    ∀ src alt r, findSrcAlt l = some (src, alt, r) →
      l = src ++ (imgSepS ++ (alt ++ (imgEndS ++ r))) := by
  induction l using findSrcAlt.induct with
  | case1 => intro src alt r h; simp [findSrcAlt] at h
  | case2 =>
    rename_i c t hpre alt' rest' hfs
    intro src alt r h
    simp only [findSrcAlt, if_pos hpre, hfs] at h
    obtain ⟨h1, h2, h3⟩ : ([] : Str) = src ∧ alt' = alt ∧ rest' = r := by simpa using h
    obtain ⟨hs, _⟩ := findStop_eq imgEndS _ alt' rest' hfs
    have hdrop : (c :: t) = imgSepS ++ (c :: t).drop 11 := by
      have := isPrefB_drop_eq hpre
      simpa [imgSepS] using this
    rw [← h1, ← h2, ← h3, List.nil_append, hdrop, hs]
  | case3 =>
    rename_i t hpre hfs
    intro src alt r h
    simp only [findSrcAlt, if_pos hpre, hfs] at h
    simp at h
  | case4 =>
    rename_i c t hpre hfs hcn ih
    intro src alt r h
    simp only [findSrcAlt, if_pos hpre, hfs, if_neg hcn, Option.map_eq_some'] at h
    obtain ⟨⟨a, b1, b2⟩, ha, hab⟩ := h
    cases hab
    have := ih a b1 b2 ha
    simp [this]
  | case5 =>
    rename_i t hpre
    intro src alt r h
    simp only [findSrcAlt, if_neg hpre] at h
    simp at h
  | case6 =>
    rename_i c t hpre hcn ih
    intro src alt r h
    simp only [findSrcAlt, if_neg hpre, if_neg hcn, Option.map_eq_some'] at h
    obtain ⟨⟨a, b1, b2⟩, ha, hab⟩ := h
    cases hab
    have := ih a b1 b2 ha
    simp [this]

-- ## Safety of the restored image markup

theorem noLtsc_append_cons {a : Str} {c0 : Char} {bt : Str} (ha : NoLtsc a)
    (hb : NoLtsc (c0 :: bt)) (h1 : c0 ≠ 's') (h2 : c0 ≠ 'c') :
    NoLtsc (a ++ c0 :: bt) := by
  intro x y hxy
  rcases List.append_eq_append_iff.mp hxy with ⟨u, hxu, hbu⟩ | ⟨u, hau, hub⟩
  · exact hb u y hbu
  · match u, hub with
    | [], h' => exact hb [] y (by simpa using h'.symm)
    | [c1], h' =>
      obtain ⟨e1, e2⟩ : '<' = c1 ∧ 's' :: 'c' :: y = c0 :: bt := by simpa [ltsc] using h'
      injection e2 with e2a _
      exact h1 e2a.symm
    | [c1, c2], h' =>
      obtain ⟨e1, e2, e3⟩ : '<' = c1 ∧ 's' = c2 ∧ 'c' :: y = c0 :: bt := by
        simpa [ltsc] using h'
      injection e3 with e3a _
      exact h2 e3a.symm
    | c1 :: c2 :: c3 :: rr, h' =>
      obtain ⟨e1, e2, e3, e4⟩ : '<' = c1 ∧ 's' = c2 ∧ 'c' = c3 ∧ y = rr ++ (c0 :: bt) := by
        simpa [ltsc] using h'
      exact ha x rr (by rw [hau, ← e1, ← e2, ← e3]; simp [ltsc])

theorem safeTail_append_long {a b : Str} (hlen : 2 ≤ b.length) (hb : SafeTail b) :
    SafeTail (a ++ b) := by
  constructor
  · intro x hx
    rcases List.append_eq_append_iff.mp hx with ⟨u, hxu, hbu⟩ | ⟨u, hau, hub⟩
    · exact hb.1 u hbu
    · have := congrArg List.length hub
      simp at this
      omega
  · intro x hx
    rcases List.append_eq_append_iff.mp hx with ⟨u, hxu, hbu⟩ | ⟨u, hau, hub⟩
    · exact hb.2 u hbu
    · have hlu := congrArg List.length hub
      simp at hlu
      have hu : u = [] := by
        cases u with
        | nil => rfl
        | cons a' b' => simp at hlu; omega
      subst hu
      exact hb.2 [] (by simpa using hub.symm)

theorem imgHtml_decomp (src alt : Str) :
    imgHtml src alt = imgK1 ++ (src ++ (imgK2 ++ (alt ++ (imgK3 ++ (alt ++ imgK4))))) := by
  simp [imgHtml, imgK1, imgK2, imgK3, imgK4, List.append_assoc]

theorem imgHtml_safe {src alt : Str} (hsrc : NoLtsc src) (halt : NoLtsc alt) :
    PieceSafe (imgHtml src alt) := by
  have hK1 : PieceSafe imgK1 := pieceSafe_of_bool (by decide) (by decide) (by decide)
  have hK2 : PieceSafe imgK2 := pieceSafe_of_bool (by decide) (by decide) (by decide)
  have hK3 : PieceSafe imgK3 := pieceSafe_of_bool (by decide) (by decide) (by decide)
  have hK4 : PieceSafe imgK4 := pieceSafe_of_bool (by decide) (by decide) (by decide)
  have hu1 : PieceSafe (alt ++ imgK4) := by
    constructor
    · exact noLtsc_append_cons halt hK4.1 (by decide) (by decide)
    · exact safeTail_append_long (by decide) hK4.2
  have hu2 : PieceSafe (imgK3 ++ (alt ++ imgK4)) := pieceSafe_append hK3 hu1
  have hu3 : PieceSafe (alt ++ (imgK3 ++ (alt ++ imgK4))) := by
    constructor
    · exact noLtsc_append_cons halt hu2.1 (by decide) (by decide)
    · refine safeTail_append_long ?_ hu2.2
      have h3 : 2 ≤ imgK3.length := by decide
      simp only [List.length_append]
      omega
  have hu4 : PieceSafe (imgK2 ++ (alt ++ (imgK3 ++ (alt ++ imgK4)))) :=
    pieceSafe_append hK2 hu3
  have hu5 : PieceSafe (src ++ (imgK2 ++ (alt ++ (imgK3 ++ (alt ++ imgK4))))) := by
    constructor
    · exact noLtsc_append_cons hsrc hu4.1 (by decide) (by decide)
    · refine safeTail_append_long ?_ hu4.2
      have h2 : 2 ≤ imgK2.length := by decide
      simp only [List.length_append]
      omega
  rw [imgHtml_decomp]
  exact pieceSafe_append hK1 hu5

-- ## Safety is preserved by the materialization scan

theorem noLtsc_of_decomp {s u m v : Str} (hs : NoLtsc s) (heq : s = u ++ (m ++ v)) :
    NoLtsc m := by
  intro x y hxy
  exact hs (u ++ x) (y ++ v) (by rw [heq, hxy]; simp [List.append_assoc])

theorem pieceSafe_of_append_right {x t : Str} (h : PieceSafe (x ++ t)) : PieceSafe t := by
  refine ⟨fun a b hab => ?_, fun a ha => ?_, fun a ha => ?_⟩
  · exact h.1 (x ++ a) b (by rw [hab]; simp [List.append_assoc])
  · exact h.2.1 (x ++ a) (by rw [ha]; simp [List.append_assoc])
  · exact h.2.2 (x ++ a) (by rw [ha]; simp [List.append_assoc])

theorem imgHtml_cons (src alt : Str) : ∃ u, imgHtml src alt = '<' :: u := ⟨_, rfl⟩

theorem materializeF_unfold (fuel : Nat) (c : Char) (t : Str) :
    materializeF (fuel + 1) (c :: t)
      = if isPrefB imgStartS (c :: t) = true then
          match findSrcAlt (List.drop 13 (c :: t)) with
          | some (src, alt, rest) => imgHtml src alt ++ materializeF fuel rest
          | none => c :: materializeF fuel t
        else c :: materializeF fuel t := rfl

theorem materializeF_step_some {fuel : Nat} {c : Char} {t src alt rest : Str}
    (hpre : isPrefB imgStartS (c :: t) = true)
    (hfs : findSrcAlt (List.drop 13 (c :: t)) = some (src, alt, rest)) :
    materializeF (fuel + 1) (c :: t) = imgHtml src alt ++ materializeF fuel rest := by
  rw [materializeF_unfold, if_pos hpre, hfs]

theorem materializeF_step_none1 {fuel : Nat} {c : Char} {t : Str}
    (hpre : isPrefB imgStartS (c :: t) = true)
    (hfs : findSrcAlt (List.drop 13 (c :: t)) = none) :
    materializeF (fuel + 1) (c :: t) = c :: materializeF fuel t := by
  rw [materializeF_unfold, if_pos hpre, hfs]

theorem materializeF_step_not {fuel : Nat} {c : Char} {t : Str}
    (hpre : ¬ isPrefB imgStartS (c :: t) = true) :
    materializeF (fuel + 1) (c :: t) = c :: materializeF fuel t := by
  simp [materializeF, hpre]

theorem materializeF_nil_inv : ∀ (fuel : Nat) (t : Str), materializeF fuel t = [] → t = [] := by
  intro fuel t
  induction fuel, t using materializeF.induct with
  | case1 => exact fun h => h
  | case2 => intro _; rfl
  | case3 =>
    rename_i fuel c t hpre src alt rest hfs ih
    intro h
    rw [materializeF_step_some hpre hfs] at h
    obtain ⟨u, hu⟩ := imgHtml_cons src alt
    rw [hu] at h
    simp at h
  | case4 =>
    rename_i fuel c t hpre hfs ih
    intro h
    rw [materializeF_step_none1 hpre hfs] at h
    simp at h
  | case5 =>
    rename_i fuel c t hpre ih
    intro h
    rw [materializeF_step_not hpre] at h
    simp at h

theorem materializeF_head : ∀ {fuel : Nat} {t : Str} {c0 : Char} {r : Str}, c0 ≠ '<' →
    materializeF fuel t = c0 :: r → ∃ r', t = c0 :: r' := by
  intro fuel t
  induction fuel, t using materializeF.induct with
  | case1 => exact fun _ h => ⟨_, h⟩
  | case2 => intro _ _ hc0 h; cases h
  | case3 =>
    rename_i fuel c t hpre src alt rest hfs ih
    intro c0 r hc0 h
    rw [materializeF_step_some hpre hfs] at h
    obtain ⟨u, hu⟩ := imgHtml_cons src alt
    rw [hu, List.cons_append] at h
    injection h with e1 _
    exact absurd e1.symm hc0
  | case4 =>
    rename_i fuel c t hpre hfs ih
    intro c0 r hc0 h
    rw [materializeF_step_none1 hpre hfs] at h
    injection h with e1 _
    exact ⟨t, by rw [e1]⟩
  | case5 =>
    rename_i fuel c t hpre ih
    intro c0 r hc0 h
    rw [materializeF_step_not hpre] at h
    injection h with e1 _
    exact ⟨t, by rw [e1]⟩

theorem materializeF_head2 : ∀ {fuel : Nat} {t : Str} {c0 c1 : Char} {r : Str},
    c0 ≠ '<' → c1 ≠ '<' →
    materializeF fuel t = c0 :: c1 :: r → ∃ r', t = c0 :: c1 :: r' := by
  intro fuel t
  induction fuel, t using materializeF.induct with
  | case1 => exact fun _ _ h => ⟨_, h⟩
  | case2 => intro _ _ _ _ _ h; cases h
  | case3 =>
    rename_i fuel c t hpre src alt rest hfs ih
    intro c0 c1 r hc0 hc1 h
    rw [materializeF_step_some hpre hfs] at h
    obtain ⟨u, hu⟩ := imgHtml_cons src alt
    rw [hu, List.cons_append] at h
    injection h with e1 _
    exact absurd e1.symm hc0
  | case4 =>
    rename_i fuel c t hpre hfs ih
    intro c0 c1 r hc0 hc1 h
    rw [materializeF_step_none1 hpre hfs] at h
    injection h with e1 e2
    obtain ⟨r', hr⟩ := materializeF_head hc1 e2
    exact ⟨r', by rw [e1, hr]⟩
  | case5 =>
    rename_i fuel c t hpre ih
    intro c0 c1 r hc0 hc1 h
    rw [materializeF_step_not hpre] at h
    injection h with e1 e2
    obtain ⟨r', hr⟩ := materializeF_head hc1 e2
    exact ⟨r', by rw [e1, hr]⟩

theorem materializeF_single : ∀ {fuel : Nat} {t : Str} {c0 : Char}, c0 ≠ '<' →
    materializeF fuel t = [c0] → t = [c0] := by
  intro fuel t
  induction fuel, t using materializeF.induct with
  | case1 => exact fun _ h => h
  | case2 => intro _ _ h; cases h
  | case3 =>
    rename_i fuel c t hpre src alt rest hfs ih
    intro c0 hc0 h
    rw [materializeF_step_some hpre hfs] at h
    obtain ⟨u, hu⟩ := imgHtml_cons src alt
    rw [hu, List.cons_append] at h
    injection h with e1 _
    exact absurd e1.symm hc0
  | case4 =>
    rename_i fuel c t hpre hfs ih
    intro c0 hc0 h
    rw [materializeF_step_none1 hpre hfs] at h
    injection h with e1 e2
    rw [e1, materializeF_nil_inv fuel t e2]
  | case5 =>
    rename_i fuel c t hpre ih
    intro c0 hc0 h
    rw [materializeF_step_not hpre] at h
    injection h with e1 e2
    rw [e1, materializeF_nil_inv fuel t e2]

theorem pieceSafe_cons_mat {fuel : Nat} {c : Char} {t : Str}
    (hs : PieceSafe (c :: t)) (hM : PieceSafe (materializeF fuel t)) :
    PieceSafe (c :: materializeF fuel t) := by
  refine ⟨fun x y hxy => ?_, fun x hx => ?_, fun x hx => ?_⟩
  · cases x with
    | nil =>
      obtain ⟨e1, hM'⟩ : c = '<' ∧ materializeF fuel t = 's' :: 'c' :: y := by
        simpa [ltsc] using hxy
      obtain ⟨r', hr⟩ := materializeF_head2 (by decide) (by decide) hM'
      exact hs.1 [] r' (by rw [e1, hr]; rfl)
    | cons x0 xr =>
      obtain ⟨e1, hM'⟩ : c = x0 ∧ materializeF fuel t = xr ++ (ltsc ++ y) := by
        simpa using hxy
      exact hM.1 xr y hM'
  · cases x with
    | nil =>
      obtain ⟨e1, hM'⟩ : c = '<' ∧ materializeF fuel t = [] := by simpa using hx
      have ht := materializeF_nil_inv fuel t hM'
      exact hs.2.1 [] (by rw [e1, ht]; rfl)
    | cons x0 xr =>
      obtain ⟨e1, hM'⟩ : c = x0 ∧ materializeF fuel t = xr ++ ['<'] := by simpa using hx
      exact hM.2.1 xr hM'
  · cases x with
    | nil =>
      obtain ⟨e1, hM'⟩ : c = '<' ∧ materializeF fuel t = ['s'] := by simpa using hx
      have ht := materializeF_single (by decide) hM'
      exact hs.2.2 [] (by rw [e1, ht]; rfl)
    | cons x0 xr =>
      obtain ⟨e1, hM'⟩ : c = x0 ∧ materializeF fuel t = xr ++ ['<', 's'] := by simpa using hx
      exact hM.2.2 xr hM'

theorem materializeF_safe : ∀ (fuel : Nat) (s : Str), PieceSafe s →
    PieceSafe (materializeF fuel s) := by
  intro fuel s
  induction fuel, s using materializeF.induct with
  | case1 => exact fun h => h
  | case2 => intro _; exact pieceSafe_nil
  | case3 =>
    rename_i fuel c t hpre src alt rest hfs ih
    intro hs
    rw [materializeF_step_some hpre hfs]
    have hd1 : (c :: t) = imgStartS ++ List.drop 13 (c :: t) := by
      have := isPrefB_drop_eq hpre
      simpa [imgStartS] using this
    have hd2 := findSrcAlt_eq _ src alt rest hfs
    have hd : (c :: t) = imgStartS ++ (src ++ (imgSepS ++ (alt ++ (imgEndS ++ rest)))) := by
      rw [hd1, hd2]
    have hsrc : NoLtsc src := noLtsc_of_decomp hs.1 hd
    have halt : NoLtsc alt :=
      noLtsc_of_decomp (u := imgStartS ++ (src ++ imgSepS))
        (v := imgEndS ++ rest) hs.1 (by rw [hd]; simp [List.append_assoc])
    have hrest : PieceSafe rest := by
      refine pieceSafe_of_append_right
        (x := imgStartS ++ (src ++ (imgSepS ++ (alt ++ imgEndS)))) ?_
      have : (c :: t) = (imgStartS ++ (src ++ (imgSepS ++ (alt ++ imgEndS)))) ++ rest := by
        rw [hd]; simp [List.append_assoc]
      exact this ▸ hs
    exact pieceSafe_append (imgHtml_safe hsrc halt) (ih hrest)
  | case4 =>
    rename_i fuel c t hpre hfs ih
    intro hs
    rw [materializeF_step_none1 hpre hfs]
    exact pieceSafe_cons_mat hs (ih (pieceSafe_of_append_right (x := [c]) hs))
  | case5 =>
    rename_i fuel c t hpre ih
    intro hs
    rw [materializeF_step_not hpre]
    exact pieceSafe_cons_mat hs (ih (pieceSafe_of_append_right (x := [c]) hs))

-- ## C1 : escaping precedes resolution, and no script markup can emerge

/-- A trusted attachment payload: a data-URI-like string carrying no raw
angle bracket or quote characters. -/

theorem pieceSafe_of_rmSafe {rm : Str → Bool → Str} (h : RmSafe rm) (m : Str) (d : Bool) :
    PieceSafe (rm m d) :=
  pieceSafe_of_bool (h m d).1 (h m d).2.1 (h m d).2.2

/-- C1 (amended): the renderer escapes every literal amp, lt, gt, quote and
apostrophe before image-reference resolution and math segmentation run
(the escaped text contains no raw occurrence of the four markup-forming
characters); every math segment is handed to the capability with quotes
still escaped (only lt/gt are unescaped); and for any input text — whatever
image or math syntax surrounds it — the final markup contains no script-tag
opener, provided the capability's markup and the trusted payloads are
themselves free of one.  The proviso is necessary: under the raw-source
fallback mode of the capability the counterexample below renders a script
tag, so the unconditional form of the claim fails. -/
theorem escape_first_no_script (text : Str) (att : AttStore) (rm : Str → Bool → Str)
    (hrm : RmSafe rm) (hatt : ∀ p ∈ att, PayloadOk p.2) :
    render rm att text
        = materialize (mathJoin rm (replImgs att (escapeHtml text)))
    ∧ ('<' ∉ escapeHtml text ∧ '>' ∉ escapeHtml text ∧ '"' ∉ escapeHtml text
        ∧ '\'' ∉ escapeHtml text)
    ∧ (∀ call ∈ mathCalls (replImgs att (escapeHtml text)),
        '"' ∉ call.1 ∧ '\'' ∉ call.1)
    ∧ hasSubB "<script".data (render rm att text) = false := by
  have hlt : '<' ∉ escapeHtml text := escapeHtml_not_mem (by simp) text
  have hgt : '>' ∉ escapeHtml text := escapeHtml_not_mem (by simp) text
  have hq : '"' ∉ escapeHtml text := escapeHtml_not_mem (by simp) text
  have ha : '\'' ∉ escapeHtml text := escapeHtml_not_mem (by simp) text
  have hIlt : '<' ∉ replImgs att (escapeHtml text) :=
    replImgsF_not_mem att '<' (by decide) (by decide) (by decide) (by decide) (by decide)
      (fun p hp => (hatt p hp).1) _ _ hlt
  have hIq : '"' ∉ replImgs att (escapeHtml text) :=
    replImgsF_not_mem att '"' (by decide) (by decide) (by decide) (by decide) (by decide)
      (fun p hp => (hatt p hp).2.1) _ _ hq
  have hIa : '\'' ∉ replImgs att (escapeHtml text) :=
    replImgsF_not_mem att '\'' (by decide) (by decide) (by decide) (by decide) (by decide)
      (fun p hp => (hatt p hp).2.2) _ _ ha
  have hJ : PieceSafe (mathJoin rm (replImgs att (escapeHtml text))) :=
    mathJoin_safe rm (pieceSafe_of_rmSafe hrm) hIlt
  have hMat : PieceSafe (render rm att text) := materializeF_safe _ _ hJ
  exact ⟨rfl, ⟨hlt, hgt, hq, ha⟩, mathCalls_no_quote hIq hIa, no_script_of_pieceSafe hMat⟩

theorem escape_first_no_script_witness :
    (RmSafe rmConst ∧ ∀ p ∈ demoAtt, PayloadOk p.2) ∧
    (render rmConst demoAtt demoAttack
        = materialize (mathJoin rmConst (replImgs demoAtt (escapeHtml demoAttack)))
    ∧ ('<' ∉ escapeHtml demoAttack ∧ '>' ∉ escapeHtml demoAttack
        ∧ '"' ∉ escapeHtml demoAttack ∧ '\'' ∉ escapeHtml demoAttack)
    ∧ (∀ call ∈ mathCalls (replImgs demoAtt (escapeHtml demoAttack)),
        '"' ∉ call.1 ∧ '\'' ∉ call.1)
    ∧ hasSubB "<script".data (render rmConst demoAtt demoAttack) = false) :=
  ⟨⟨fun m d => ⟨rfl, rfl, rfl⟩, by decide⟩,
    escape_first_no_script demoAttack demoAtt rmConst
      (fun m d => ⟨rfl, rfl, rfl⟩) (by decide)⟩

-- ## The escape pass neither creates nor destroys image-reference tags

theorem bang_entR {c : Char} (h : '!' ∈ entR c) : c = '!' := by
  by_cases hs : specialHtmlChar c
  · rcases hs with h'|h'|h'|h'|h' <;> subst h' <;> (exfalso; revert h; decide)
  · rw [entR_id_of_not_special hs] at h
    exact (List.mem_singleton.mp h).symm

theorem rbracket_entR {c : Char} (h : ']' ∈ entR c) : c = ']' := by
  by_cases hs : specialHtmlChar c
  · rcases hs with h'|h'|h'|h'|h' <;> subst h' <;> (exfalso; revert h; decide)
  · rw [entR_id_of_not_special hs] at h
    exact (List.mem_singleton.mp h).symm

theorem rparen_entR {c : Char} (h : ')' ∈ entR c) : c = ')' := by
  by_cases hs : specialHtmlChar c
  · rcases hs with h'|h'|h'|h'|h' <;> subst h' <;> (exfalso; revert h; decide)
  · rw [entR_id_of_not_special hs] at h
    exact (List.mem_singleton.mp h).symm

theorem entMap_marker_split (m : Char) (hm1 : entR m = [m])
    (hm2 : ∀ c : Char, m ∈ entR c → c = m) :
    ∀ (l x y : Str), entMapWith entR l = x ++ m :: y →
      ∃ lx ly, l = lx ++ m :: ly ∧ entMapWith entR lx = x ∧ entMapWith entR ly = y := by
  intro l
  induction l with
  | nil =>
    intro x y h
    rw [show entMapWith entR [] = [] from rfl] at h
    exact absurd h.symm (by simp)
  | cons c t ih =>
    intro x y h
    rw [show entMapWith entR (c :: t) = entR c ++ entMapWith entR t from rfl] at h
    rcases List.append_eq_append_iff.mp h with ⟨u, hxu, htu⟩ | ⟨u, hcu, huy⟩
    · obtain ⟨lx, ly, hl, hx, hy⟩ := ih u y htu
      refine ⟨c :: lx, ly, by rw [hl]; rfl, ?_, hy⟩
      rw [show entMapWith entR (c :: lx) = entR c ++ entMapWith entR lx from rfl, hx, hxu]
    · cases u with
      | nil =>
        obtain ⟨lx, ly, hl, hx, hy⟩ := ih [] y (by simpa using huy.symm)
        refine ⟨c :: lx, ly, by rw [hl]; rfl, ?_, hy⟩
        rw [show entMapWith entR (c :: lx) = entR c ++ entMapWith entR lx from rfl, hx]
        simpa using hcu
      | cons u0 ur =>
        injection huy with e1 e2
        have hmc : c = m := hm2 c (by rw [hcu, e1]; simp)
        subst hmc
        rw [hm1] at hcu
        have hx0 : x = [] ∧ u0 = c ∧ ur = [] := by
          cases x with
          | nil =>
            obtain ⟨ha, hb⟩ : c = u0 ∧ ([] : Str) = ur := by simpa using hcu
            exact ⟨rfl, ha.symm, hb.symm⟩
          | cons a b => simp at hcu
        obtain ⟨hx0, hu0, hur⟩ := hx0
        subst hx0
        subst hur
        refine ⟨[], t, rfl, rfl, ?_⟩
        simpa using e2.symm

theorem entMap_prefix_pull (p : Str) (hp : ∀ c ∈ p, ¬ specialHtmlChar c) :
    ∀ (l r : Str), entMapWith entR l = p ++ r →
      ∃ l2, l = p ++ l2 ∧ entMapWith entR l2 = r := by
  induction p with
  | nil => intro l r h; exact ⟨l, rfl, by simpa using h⟩
  | cons p0 ps ih =>
    intro l r h
    cases l with
    | nil =>
      rw [show entMapWith entR [] = [] from rfl] at h
      exact absurd h.symm (by simp)
    | cons c t =>
      rw [show entMapWith entR (c :: t) = entR c ++ entMapWith entR t from rfl] at h
      by_cases hs : specialHtmlChar c
      · obtain ⟨u, hu⟩ := entR_head_amp hs
        rw [hu] at h
        injection h with e1 _
        refine absurd ?_ (hp p0 (List.mem_cons_self _ _))
        rw [← e1]
        simp [specialHtmlChar]
      · rw [entR_id_of_not_special hs] at h
        injection h with e1 e2
        obtain ⟨l2, hl2, hr⟩ := ih (fun c' hc' => hp c' (List.mem_cons_of_mem _ hc')) t r e2
        exact ⟨l2, by rw [e1, hl2]; rfl, hr⟩

/-- The input contains a full image-reference tag (the match condition of
the pass-2 pattern, somewhere in the string). -/

theorem hasImgTag_cons {c : Char} {t : Str} (h : HasImgTag t) : HasImgTag (c :: t) := by
  obtain ⟨pre, a, i, p, he, h1, h2⟩ := h
  exact ⟨c :: pre, a, i, p, by rw [he]; rfl, h1, h2⟩

theorem hasImgTag_escaped (l : Str) (h : HasImgTag (escapeHtml l)) : HasImgTag l := by
  rw [escapeHtml_eq_entMap] at h
  obtain ⟨pre, alt, id, post, heq, hna, hni⟩ := h
  obtain ⟨l1, l2, hl12, hx1, hy1⟩ :=
    entMap_marker_split '!' (entR_id_of_not_special (by decide)) (fun c => bang_entR)
      l pre _ heq
  obtain ⟨l3, hl3, hy2⟩ :=
    entMap_prefix_pull ['['] (by decide) l2 _ hy1
  have hy2' : entMapWith entR l3
      = alt ++ (']' :: ("(attachment:".data ++ (id ++ ')' :: post))) := by
    rw [hy2]
    rfl
  obtain ⟨la, l4, hl4, hxa, hy3⟩ :=
    entMap_marker_split ']' (entR_id_of_not_special (by decide)) (fun c => rbracket_entR)
      l3 alt _ hy2'
  obtain ⟨l5, hl5, hy4⟩ :=
    entMap_prefix_pull "(attachment:".data (by decide) l4 _ hy3
  obtain ⟨li, l6, hl6, hxi, hy5⟩ :=
    entMap_marker_split ')' (entR_id_of_not_special (by decide)) (fun c => rparen_entR)
      l5 id _ hy4
  have hnalt : '\n' ∉ la := by
    intro hm
    exact hna (hxa ▸ mem_entMapWith_of_mem hm (by decide))
  have hnid : '\n' ∉ li := by
    intro hm
    exact hni (hxi ▸ mem_entMapWith_of_mem hm (by decide))
  refine ⟨l1, la, li, l6, ?_, hnalt, hnid⟩
  rw [hl12, hl3, hl4, hl5, hl6]
  simp [attMarker, List.append_assoc]

theorem replImgsF_id_of_no_tag (att : AttStore) :
    ∀ (fuel : Nat) (s : Str), ¬ HasImgTag s → replImgsF att fuel s = s := by
  intro fuel s
  induction fuel, s using replImgsF.induct att with
  | case1 => intro _; rfl
  | case2 => intro _; rfl
  | case3 =>
    rename_i fuel t alt id rest hfa ih
    intro hno
    exfalso
    obtain ⟨ht, hna, hni⟩ := findAlt_eq t alt id rest hfa
    exact hno ⟨[], alt, id, rest, by rw [ht]; rfl, hna, hni⟩
  | case4 =>
    rename_i fuel t hfa ih
    intro hno
    simp only [replImgsF_bang, hfa]
    rw [ih (fun hh => hno (hasImgTag_cons hh))]
  | case5 =>
    rename_i fuel c t hnn ih
    intro hno
    rw [replImgsF_cons_ne att fuel c t (fun t' hct => hnn t' hct.1 hct.2)]
    rw [ih (fun hh => hno (hasImgTag_cons hh))]

-- ## The math pass is inert on dollar-free input

theorem mathSplitF_no_dollar (fuel : Nat) :
    ∀ s : Str, '$' ∉ s → mathSplitF fuel s = if s = [] then [] else [(false, s)] := by
  induction fuel with
  | zero => intro s h; rfl
  | succ f ih =>
    intro s h
    cases s with
    | nil => rfl
    | cons c t =>
      have hc : c ≠ '$' := fun e => h (by simp [e])
      have hm := matchMathAt_none t hc
      simp only [mathSplitF, hm]
      rw [ih t (fun hx => h (List.mem_cons_of_mem _ hx))]
      by_cases ht : t = []
      · subst ht
        simp [consText]
      · rw [if_neg ht]
        simp [consText]

theorem isPrefB_dollar_false {s : Str} (h : '$' ∉ s) (hne : s ≠ []) :
    isPrefB ['$'] s = false ∧ isPrefB ['$', '$'] s = false := by
  cases s with
  | nil => exact absurd rfl hne
  | cons c t =>
    have hc : ¬ ('$' = c) := fun e => h (by simp [← e])
    constructor <;> simp [isPrefB, hc]

-- ## C6 : plain text renders as escaped text with line breaks

/-- C6: on text containing no image-reference tag and no dollar delimiter,
the pipeline with an empty attachment store produces exactly the
HTML-escaped text with each newline turned into a break tag. -/
theorem render_plain_text (text : Str) (rm : Str → Bool → Str)
    (htag : ¬ HasImgTag text) (hd : '$' ∉ text) :
    render rm [] text = replC '\n' "<br/>".data (escapeHtml text) := by
  have hof : ¬ HasImgTag (escapeHtml text) := fun hh => htag (hasImgTag_escaped text hh)
  have h1 : replImgs [] (escapeHtml text) = escapeHtml text :=
    replImgsF_id_of_no_tag [] _ _ hof
  have hdd : '$' ∉ escapeHtml text := escapeHtml_no_dollar hd
  show materialize (mathJoin rm (replImgs [] (escapeHtml text)))
      = replC '\n' "<br/>".data (escapeHtml text)
  rw [h1]
  have h2 : mathJoin rm (escapeHtml text)
      = replC '\n' "<br/>".data (escapeHtml text) := by
    unfold mathJoin
    rw [show mathSplit (escapeHtml text)
        = mathSplitF (escapeHtml text).length (escapeHtml text) from rfl]
    rw [mathSplitF_no_dollar _ _ hdd]
    by_cases he : escapeHtml text = []
    · rw [if_pos he, he]
      rfl
    · rw [if_neg he]
      show renderPart rm (escapeHtml text) ++ [] = _
      rw [List.append_nil]
      have hp := isPrefB_dollar_false hdd he
      unfold renderPart
      rw [if_neg (by simp [hp.2]), if_neg (by simp [hp.1])]
  rw [h2]
  have h3 : '$' ∉ replC '\n' "<br/>".data (escapeHtml text) := by
    intro hm
    rcases mem_replC hm with h' | h'
    · exact hdd h'
    · revert h'
      decide
  exact materializeF_id_of_no_dollar _ _ h3

theorem noImgTag_of_no_bang {s : Str} (h : '!' ∉ s) : ¬ HasImgTag s := by
  rintro ⟨pre, a, i, p, he, _, _⟩
  exact h (by rw [he]; simp)

theorem render_plain_text_witness :
    ('!' ∉ demoPlain ∧ '$' ∉ demoPlain) ∧
    render rmConst [] demoPlain = replC '\n' "<br/>".data (escapeHtml demoPlain) :=
  ⟨⟨by decide, by decide⟩,
    render_plain_text demoPlain rmConst (noImgTag_of_no_bang (by decide)) (by decide)⟩

/-- C1 counterexample: in the capability's raw-source fallback mode (katex
absent or throwing, exactly the degradation renderMath implements), markup
written inside an inline math segment reaches the final output unescaped,
because the pass deliberately unescapes the lt/gt entities of the segment
before handing it over and the fallback returns the source unchanged: the
pipeline here renders a literal script tag and a literal img-onerror tag. -/
theorem script_through_math_fallback :
    render rmRaw [] "$<script>$".data = "<script>".data
    ∧ hasSubB "<script".data (render rmRaw [] "$<script>$".data) = true
    ∧ render rmRaw [] "$<img src=x onerror=alert(1)>$".data
        = "<img src=x onerror=alert(1)>".data := by
  refine ⟨by decide, by decide, by decide⟩
